import Mathlib

/-!
Verification of col2xy: RGB to CIE 1931 chromaticity.

A shallow embedding of `col2xy.go`.  The Go functions are translated once, over an
arbitrary carrier `F` of "float64 values" with the operations the source uses
(`+`, `*`, `/`, `>`, decimal constants, integer-to-float conversion) and with
`math.Pow` taken as a parameter `pow`.  The definitions are then read in two ways:

* over `F64`, a model of IEEE-754 binary64 with round-to-nearest-even, signed
  zeros, infinities and NaN (used for bit-exact statements and for float64 range
  statements; what is assumed of `math.Pow` is always an explicit hypothesis, either
  the documented special case `math.Pow(1, y) = 1` or the range assumption `PowRange`);
* over `ℝ`, with `Real.rpow` for `pow` (exact arithmetic).
-/

namespace Col2xy

/-! ## IEEE-754 binary64 -/

/-- A binary64 value: NaN, a signed infinity, or the finite value
`(-1)^neg * m * 2^e`.  The arithmetic below only produces finite values in
canonical form: `m < 2^53`, `-1074 ≤ e ≤ 971`, and `2^52 ≤ m` unless `e = -1074`
(zero is `m = 0`, `e = -1074`). -/
inductive F64 where
  | nan : F64
  | inf (neg : Bool) : F64
  | fin (neg : Bool) (m : Nat) (e : Int) : F64
  deriving DecidableEq, Repr

namespace F64

/-- Auxiliary for `log2`: `fuel` bounds the number of halvings. -/
def log2Aux : Nat → Nat → Nat
  | 0, _ => 0
  | fuel + 1, n => if n < 2 then 0 else log2Aux fuel (n / 2) + 1

/-- The floor of the base-2 logarithm (`0` at `0`). -/
def log2 (n : Nat) : Nat := log2Aux n n

/-- Floor and remainder of `(n / d) * 2^e / 2^s` as a pair `(q, r, D)` with
`n * 2^(e-s) / d = q + r / D` and `r < D`. -/
def scaled (n d : Nat) (e s : Int) : Nat × Nat × Nat :=
  let N := if s ≤ e then n * 2 ^ (e - s).toNat else n
  let D := if s ≤ e then d else d * 2 ^ (s - e).toNat
  (N / D, N % D, D)

/-- Round the exact value `(-1)^neg * (n / d) * 2^e` (with `d ≠ 0`) to the nearest
binary64, ties to even; values too large become an infinity, tiny values are
rounded on the subnormal grid `2^-1074`. -/
def roundQ (neg : Bool) (n d : Nat) (e : Int) : F64 :=
  if n = 0 then fin neg 0 (-1074) else
  -- the value lies strictly between 2^(k+e-1) and 2^(k+e+1)
  let k : Int := (log2 n : Int) - (log2 d : Int)
  let s1 : Int := k + e - 52
  let s2 : Int := if (scaled n d e s1).1 < 2 ^ 52 then s1 - 1 else s1
  let s : Int := if s2 < -1074 then -1074 else s2
  let (q, r, D) := scaled n d e s
  let q1 := if D < 2 * r ∨ (2 * r = D ∧ q % 2 = 1) then q + 1 else q
  let (m, x) : Nat × Int := if q1 = 2 ^ 53 then (2 ^ 52, s + 1) else (q1, s)
  if 971 < x then inf neg else fin neg m x

/-- The signed integer `(-1)^neg * m * 2^(e - lo)` for `lo ≤ e`. -/
def toIntAt (neg : Bool) (m : Nat) (e lo : Int) : Int :=
  let v : Int := (m * 2 ^ (e - lo).toNat : Nat)
  if neg then -v else v

/-- Float64 addition. -/
def add : F64 → F64 → F64
  | nan, _ => nan
  | _, nan => nan
  | inf a, inf b => if a = b then inf a else nan
  | inf a, fin _ _ _ => inf a
  | fin _ _ _, inf b => inf b
  | fin a m e, fin b n f =>
    let lo := min e f
    let z := toIntAt a m e lo + toIntAt b n f lo
    if z = 0 then fin (a && b) 0 (-1074) else roundQ (decide (z < 0)) z.natAbs 1 lo

/-- Float64 multiplication. -/
def mul : F64 → F64 → F64
  | nan, _ => nan
  | _, nan => nan
  | inf a, inf b => inf (xor a b)
  | inf a, fin b n _ => if n = 0 then nan else inf (xor a b)
  | fin a m _, inf b => if m = 0 then nan else inf (xor a b)
  | fin a m e, fin b n f => roundQ (xor a b) (m * n) 1 (e + f)

/-- Float64 division. -/
def div : F64 → F64 → F64
  | nan, _ => nan
  | _, nan => nan
  | inf _, inf _ => nan
  | inf a, fin b _ _ => inf (xor a b)
  | fin a _ _, inf b => fin (xor a b) 0 (-1074)
  | fin a m e, fin b n f =>
    if n = 0 then (if m = 0 then nan else inf (xor a b))
    else roundQ (xor a b) m n (e - f)

/-- Float64 ordered comparison `x < y` (false when either side is NaN). -/
def lt : F64 → F64 → Bool
  | nan, _ => false
  | _, nan => false
  | inf a, inf b => a && !b
  | inf a, fin _ _ _ => a
  | fin _ _ _, inf b => !b
  | fin a m e, fin b n f =>
    let lo := min e f
    decide (toIntAt a m e lo < toIntAt b n f lo)

/-- Conversion of the exact decimal constant `mant * 10^(±dexp)` to float64. -/
def ofDecimal (mant : Nat) (negExp : Bool) (dexp : Nat) : F64 :=
  if negExp then roundQ false mant (10 ^ dexp) 0 else roundQ false (mant * 10 ^ dexp) 1 0

instance : Add F64 := ⟨add⟩
instance : Mul F64 := ⟨mul⟩
instance : Div F64 := ⟨div⟩
instance : LT F64 := ⟨fun x y => lt x y = true⟩
instance : DecidableRel (LT.lt : F64 → F64 → Prop) := fun x y => decEq (lt x y) true
instance : OfScientific F64 := ⟨ofDecimal⟩
instance : NatCast F64 := ⟨fun n => roundQ false n 1 0⟩

end F64

/-! ## The program -/

section Program

variable {F : Type} [Add F] [Mul F] [Div F] [LT F] [DecidableRel (LT.lt : F → F → Prop)]
  [OfScientific F] [NatCast F]

/-- Go: `maxColorF = float64(0xffff)`. -/
def maxColorF : F := ((0xffff : Nat) : F)

/-- Go: `maxByteF = float64(255)`. -/
def maxByteF : F := ((255 : Nat) : F)

/-- Go: `ApplyGammaCorrection`.  `pow` stands for `math.Pow`; the divisor `1+0.055`
is a constant expression, which Go evaluates exactly before converting it to
float64, hence the single constant `1.055`. -/
def ApplyGammaCorrection (pow : F → F → F) (c : F) : F :=
  if c > 0.04045 then
    pow ((c + 0.055) / 1.055) 2.4
  else
    c / 12.92

/-- Go: `Normalized2XY`. -/
def Normalized2XY (pow : F → F → F) (r g b : F) : F × F :=
  let cr := ApplyGammaCorrection pow r
  let cg := ApplyGammaCorrection pow g
  let cb := ApplyGammaCorrection pow b
  let X := cr * 0.6491852651246980 + cg * 0.1034883891428110 + cb * 0.1973263457324920
  let Y := cr * 0.2340599935483600 + cg * 0.7433166037561910 + cb * 0.0226234026954449
  let Z := cr * 0.0 + cg * 0.0530940431254422 + cb * 1.0369059568745600
  let sum := X + Y + Z
  let x := X / sum
  let y := Y / sum
  (x, y)

/-- The local variable `sum` of `Normalized2XY` (the divisor of both results). -/
def Normalized2XY_sum (pow : F → F → F) (r g b : F) : F :=
  let cr := ApplyGammaCorrection pow r
  let cg := ApplyGammaCorrection pow g
  let cb := ApplyGammaCorrection pow b
  let X := cr * 0.6491852651246980 + cg * 0.1034883891428110 + cb * 0.1973263457324920
  let Y := cr * 0.2340599935483600 + cg * 0.7433166037561910 + cb * 0.0226234026954449
  let Z := cr * 0.0 + cg * 0.0530940431254422 + cb * 1.0369059568745600
  X + Y + Z

/-- Go: `NormalizeRGB`.  A `byte` argument is a natural number below 256. -/
def NormalizeRGB (r g b : Nat) : F × F × F :=
  ((r : F) / maxByteF, (g : F) / maxByteF, (b : F) / maxByteF)

/-- Go: `RGB2XY`. -/
def RGB2XY (pow : F → F → F) (r g b : Nat) : F × F :=
  let n : F × F × F := NormalizeRGB r g b
  Normalized2XY pow n.1 n.2.1 n.2.2

/-- Go: `color.Color`, an interface whose only method `RGBA()` returns four
`uint32` values; a colour is modelled by what that accessor returns. -/
structure Color where
  RGBA : Nat × Nat × Nat × Nat

/-- Go: `NormalizeColor`. -/
def NormalizeColor (c : Color) : F × F × F :=
  let (r, g, b, _) := c.RGBA
  ((r : F) / maxColorF, (g : F) / maxColorF, (b : F) / maxColorF)

/-- Go: `Color2XY`. -/
def Color2XY (pow : F → F → F) (c : Color) : F × F :=
  let n : F × F × F := NormalizeColor c
  Normalized2XY pow n.1 n.2.1 n.2.2

/-- The expression returned by the power-law branch of `ApplyGammaCorrection`
(the `return` under `if c > 0.04045`), as a function of `c` alone. -/
def gammaPowerBranch (pow : F → F → F) (c : F) : F :=
  pow ((c + 0.055) / 1.055) 2.4

/-- The expression returned by the linear branch of `ApplyGammaCorrection` (the final
`return`), as a function of `c` alone. -/
def gammaLinearBranch (c : F) : F :=
  c / 12.92

end Program

/-! ## The pipeline as the specification words it -/

section Spec

variable {F : Type} [Add F] [Mul F] [Div F] [OfScientific F]

/-- Specification, Linear Transformer: the fixed linear combination giving
`(X, Y, Z)` from three linearized channels. -/
def specLinear (r g b : F) : F × F × F :=
  (r * 0.6491852651246980 + g * 0.1034883891428110 + b * 0.1973263457324920,
   r * 0.2340599935483600 + g * 0.7433166037561910 + b * 0.0226234026954449,
   r * 0.0 + g * 0.0530940431254422 + b * 1.0369059568745600)

/-- Specification, Chromaticity Projector: `sum = X + Y + Z`, result
`(X / sum, Y / sum)`. -/
def specProject (t : F × F × F) : F × F :=
  (t.1 / (t.1 + t.2.1 + t.2.2), t.2.1 / (t.1 + t.2.1 + t.2.2))

end Spec

/-! ## Float64 constants and a sample power function -/

namespace F64

/-- The float64 value `+0`. -/
def zero : F64 := fin false 0 (-1074)

/-- The float64 value `1`. -/
def one : F64 := fin false (2 ^ 52) (-52)

/-- A sample power function with `samplePow 1 y = 1`, the one documented special
case of `math.Pow` that the bit-exact statements rely on. -/
def samplePow (x _y : F64) : F64 := x

end F64

/-! ## Float64: ordering, exact values and the assumption on `math.Pow` -/

namespace F64

/-- Float64 ordered comparison `x ≤ y` (false when either side is NaN). -/
def le : F64 → F64 → Bool
  | nan, _ => false
  | _, nan => false
  | inf a, inf b => a || !b
  | inf a, fin _ _ _ => a
  | fin _ _ _, inf b => !b
  | fin a m e, fin b n f =>
    let lo := min e f
    decide (toIntAt a m e lo ≤ toIntAt b n f lo)

instance : LE F64 := ⟨fun x y => le x y = true⟩
instance : DecidableRel (LE.le : F64 → F64 → Prop) := fun x y => decEq (le x y) true

/-- The exact rational value of a finite float64 (`0` for NaN and infinities). -/
def toRat : F64 → ℚ
  | fin neg m e => (if neg then -(m : ℚ) else (m : ℚ)) * (2 : ℚ) ^ e
  | _ => 0

/-- The float `x` is finite and non-negative (possibly `-0`) with exact value `v`. -/
def IsVal (x : F64) (v : ℚ) : Prop :=
  ∃ (a : Bool) (m : Nat) (e : Int), x = fin a m e ∧ (a = false ∨ m = 0) ∧ v = (m : ℚ) * (2 : ℚ) ^ e

/-- The value `v` is a correct rounding of the exact non-negative value `Q`: it is
within relative error `2^-53` up to the subnormal quantum, and it does not exceed any
float64 value `g * 2^t` (53-bit `g`, `t ≥ -1074`) that bounds `Q` from above. -/
def Rnd (v Q : ℚ) : Prop :=
  |v - Q| ≤ Q * 2 ^ (-53 : Int) + 2 ^ (-1075 : Int)
  ∧ ∀ (g : Nat) (t : Int), g < 2 ^ 53 → -1074 ≤ t → Q ≤ (g : ℚ) * (2 : ℚ) ^ t →
      v ≤ (g : ℚ) * (2 : ℚ) ^ t

/-- The float64 value is finite (neither NaN nor an infinity). -/
def isFinite : F64 → Bool
  | fin _ _ _ => true
  | _ => false

/-- A float64 value in the canonical form of the model (every real float64 value has
exactly one such representation, up to the exponent of zero). -/
def Canonical : F64 → Prop
  | fin _ m e => m < 2 ^ 53 ∧ -1074 ≤ e ∧ e ≤ 971 ∧ (2 ^ 52 ≤ m ∨ e = -1074)
  | _ => True

end F64

/-- The assumption on `math.Pow` used by the float64 range statements: for a base
`x` with `0.09 ≤ x ≤ 1` the result of `math.Pow(x, 2.4)` lies in `[0.001, 1]`.  The
exact power lies in `[0.0030, 1]` on that range, so every power function that returns
a float64 neighbour of the exact power satisfies it; `math.Pow` itself is standard
library code outside this repository. -/
def PowRange (pow : F64 → F64 → F64) : Prop :=
  ∀ x : F64, (0.09 : F64) ≤ x → x ≤ F64.one →
    (0.001 : F64) ≤ pow x 2.4 ∧ pow x 2.4 ≤ F64.one

/-! ## Float64 facts -/

namespace F64

theorem byte_full : ((255 : Nat) : F64) / maxByteF = one := by decide!

theorem byte_zero : ((0 : Nat) : F64) / maxByteF = zero := by decide!

theorem wide_zero : ((0 : Nat) : F64) / maxColorF = zero := by decide!

/-- The byte and the wide normalisation agree on proportional input, bit for bit. -/
theorem wide_eq_byte : ∀ r : Nat, r < 256 →
    ((257 * r : Nat) : F64) / maxColorF = ((r : Nat) : F64) / maxByteF := by decide!

/-- Gamma correction of `1.0`, given `math.Pow(1, y) = 1`. -/
theorem gamma_one (pow : F64 → F64 → F64) (hpow : ∀ y, pow one y = one) :
    ApplyGammaCorrection pow one = one := by
  have h2 : one > (0.04045 : F64) := by decide!
  have h3 : (one + 0.055) / 1.055 = one := by decide!
  unfold ApplyGammaCorrection
  rw [if_pos h2, h3, hpow]

/-- Gamma correction of `+0` takes the linear branch and returns `+0`. -/
theorem gamma_zero (pow : F64 → F64 → F64) : ApplyGammaCorrection pow zero = zero := by
  have h2 : ¬ zero > (0.04045 : F64) := by decide!
  have h3 : zero / 12.92 = zero := by decide!
  unfold ApplyGammaCorrection
  rw [if_neg h2, h3]

end F64

/-! ## Float64: theory of the model -/

namespace F64

/-! ## Float64: correctness of the rounding -/

theorem log2Aux_spec : ∀ (fuel n : Nat), 0 < n → n ≤ fuel →
    2 ^ log2Aux fuel n ≤ n ∧ n < 2 ^ (log2Aux fuel n + 1) := by
  intro fuel
  induction fuel with
  | zero =>
    intro n hn hle
    omega
  | succ k ih =>
    intro n hn hle
    unfold log2Aux
    by_cases h2 : n < 2
    · rw [if_pos h2]
      have : n = 1 := by omega
      subst this
      norm_num
    · rw [if_neg h2]
      have hpos : 0 < n / 2 := by omega
      have hle2 : n / 2 ≤ k := by omega
      obtain ⟨h1, h3⟩ := ih (n / 2) hpos hle2
      constructor
      · rw [pow_succ]
        omega
      · rw [pow_succ]
        omega

theorem log2_spec (n : Nat) (hn : 0 < n) : 2 ^ log2 n ≤ n ∧ n < 2 ^ (log2 n + 1) :=
  log2Aux_spec n n hn le_rfl

theorem nat_div_add_mod_rat (N D : Nat) (hD : 0 < D) :
    ((N / D : Nat) : ℚ) + ((N % D : Nat) : ℚ) / (D : ℚ) = (N : ℚ) / (D : ℚ) := by
  have h := Nat.div_add_mod N D
  have hD' : (D : ℚ) ≠ 0 := by exact_mod_cast hD.ne'
  have h2 : (D : ℚ) * ((N / D : Nat) : ℚ) + ((N % D : Nat) : ℚ) = (N : ℚ) := by exact_mod_cast h
  field_simp
  linarith

theorem scaled_spec (n d : Nat) (e s : Int) (hd : 0 < d) :
    0 < (scaled n d e s).2.2 ∧ (scaled n d e s).2.1 < (scaled n d e s).2.2 ∧
    ((scaled n d e s).1 : ℚ) + ((scaled n d e s).2.1 : ℚ) / ((scaled n d e s).2.2 : ℚ)
      = (n : ℚ) / (d : ℚ) * (2 : ℚ) ^ (e - s) := by
  have hd' : (d : ℚ) ≠ 0 := by exact_mod_cast hd.ne'
  unfold scaled
  by_cases h : s ≤ e
  · simp only [if_pos h]
    refine ⟨hd, Nat.mod_lt _ hd, ?_⟩
    rw [nat_div_add_mod_rat _ _ hd]
    have hk : ((e - s).toNat : Int) = e - s := Int.toNat_of_nonneg (by omega)
    have hz : (2 : ℚ) ^ (e - s) = 2 ^ (e - s).toNat := by rw [← zpow_natCast, hk]
    rw [hz]
    push_cast
    ring
  · simp only [if_neg h]
    have hD : 0 < d * 2 ^ (s - e).toNat := Nat.mul_pos hd (by positivity)
    refine ⟨hD, Nat.mod_lt _ hD, ?_⟩
    rw [nat_div_add_mod_rat _ _ hD]
    have hk : e - s = - ((s - e).toNat : Int) := by
      rw [Int.toNat_of_nonneg (by omega)]
      ring
    have hz : (2 : ℚ) ^ (e - s) = (2 ^ (s - e).toNat)⁻¹ := by
      rw [hk, zpow_neg, zpow_natCast]
    rw [hz]
    push_cast
    field_simp

/-- Rounding of `q + r / D` to the nearest integer, ties to even. -/
theorem rne_spec (q r D : Nat) (hD : 0 < D) (hr : r < D) :
    |(((if D < 2 * r ∨ (2 * r = D ∧ q % 2 = 1) then q + 1 else q : Nat) : ℚ))
        - ((q : ℚ) + (r : ℚ) / (D : ℚ))| ≤ 1 / 2
    ∧ (q ≤ (if D < 2 * r ∨ (2 * r = D ∧ q % 2 = 1) then q + 1 else q))
    ∧ (∀ B : Nat, (q : ℚ) + (r : ℚ) / (D : ℚ) ≤ (B : ℚ) →
        (if D < 2 * r ∨ (2 * r = D ∧ q % 2 = 1) then q + 1 else q) ≤ B) := by
  have hD' : (0 : ℚ) < D := by exact_mod_cast hD
  have hr' : (r : ℚ) < D := by exact_mod_cast hr
  have hr0 : (0 : ℚ) ≤ r := by positivity
  have hfrac : (r : ℚ) / D < 1 := by rw [div_lt_one hD']; exact hr'
  have hfrac0 : (0 : ℚ) ≤ (r : ℚ) / D := by positivity
  by_cases hc : D < 2 * r ∨ (2 * r = D ∧ q % 2 = 1)
  · rw [if_pos hc]
    have h2 : (D : ℚ) ≤ 2 * r := by
      rcases hc with h | ⟨h, _⟩
      · exact_mod_cast h.le
      · exact_mod_cast h.symm.le
    have hhalf : (1 : ℚ) / 2 ≤ (r : ℚ) / D := by
      rw [le_div_iff₀ hD']
      linarith
    refine ⟨?_, Nat.le_succ q, ?_⟩
    · rw [abs_le]
      push_cast
      constructor <;> linarith
    · intro B hB
      have hr1 : 0 < r := by
        rcases hc with h | ⟨h, _⟩ <;> omega
      have hpos : (0 : ℚ) < (r : ℚ) / D := by
        have : (0 : ℚ) < r := by exact_mod_cast hr1
        positivity
      have : (q : ℚ) < B := by linarith
      have : q < B := by exact_mod_cast this
      omega
  · rw [if_neg hc]
    have h2 : 2 * (r : ℚ) ≤ D := by
      have : 2 * r ≤ D := by
        by_contra hcon
        exact hc (Or.inl (by omega))
      exact_mod_cast this
    have hhalf : (r : ℚ) / D ≤ 1 / 2 := by
      rw [div_le_iff₀ hD']
      linarith
    refine ⟨?_, le_rfl, ?_⟩
    · rw [abs_le]
      constructor <;> linarith
    · intro B hB
      have : (q : ℚ) ≤ B := by linarith
      exact_mod_cast this

/-- The scale chosen by `roundQ`: above the subnormal grid the scaled value has at
least 53 bits. -/
theorem scale_spec (n d : Nat) (e s1 s2 s : Int) (hn : 0 < n) (hd : 0 < d)
    (hs1 : (log2 n : Int) - (log2 d : Int) + e - 52 = s1)
    (hs2 : (if (scaled n d e s1).1 < 2 ^ 52 then s1 - 1 else s1) = s2)
    (hs : (if s2 < -1074 then -1074 else s2) = s) :
    -1074 ≤ s ∧ (s ≠ -1074 → (2 : ℚ) ^ 52 ≤ (n : ℚ) / (d : ℚ) * (2 : ℚ) ^ (e - s)) := by
  have hn' : (0 : ℚ) < n := by exact_mod_cast hn
  have hd' : (0 : ℚ) < d := by exact_mod_cast hd
  constructor
  · rw [← hs]
    split_ifs <;> omega
  · intro hne
    have hss : s = s2 := by
      rw [← hs]
      rw [← hs] at hne
      split_ifs with h
      · rw [if_pos h] at hne
        exact absurd rfl hne
      · rfl
    rw [hss, ← hs2]
    by_cases hc : (scaled n d e s1).1 < 2 ^ 52
    · rw [if_pos hc]
      -- n / d ≥ 2 ^ (k - 1)
      obtain ⟨hnl, _⟩ := log2_spec n hn
      obtain ⟨_, hdu⟩ := log2_spec d hd
      have hnl' : (2 : ℚ) ^ (log2 n) ≤ n := by exact_mod_cast hnl
      have hdu' : (d : ℚ) ≤ 2 ^ (log2 d + 1) := by exact_mod_cast hdu.le
      have hes : e - (s1 - 1) = 52 - (log2 n : Int) + ((log2 d : Int) + 1) := by
        rw [← hs1]
        ring
      rw [hes, zpow_add₀ (by norm_num : (2 : ℚ) ≠ 0), zpow_sub₀ (by norm_num : (2 : ℚ) ≠ 0)]
      have e1 : (2 : ℚ) ^ ((log2 n : Int)) = 2 ^ (log2 n) := zpow_natCast 2 (log2 n)
      have e2 : (2 : ℚ) ^ ((log2 d : Int) + 1) = 2 ^ (log2 d + 1) := by
        have : ((log2 d : Int) + 1) = ((log2 d + 1 : Nat) : Int) := by push_cast; ring
        rw [this, zpow_natCast]
      have e3 : (2 : ℚ) ^ (52 : Int) = 2 ^ 52 := by norm_num
      rw [e1, e2, e3]
      have hp1 : (0 : ℚ) < 2 ^ (log2 n) := by positivity
      have hp2 : (0 : ℚ) < 2 ^ (log2 d + 1) := by positivity
      rw [div_mul_eq_mul_div, le_div_iff₀ hd']
      have h52 : (0 : ℚ) < 2 ^ 52 := by positivity
      calc (2 : ℚ) ^ 52 * d ≤ 2 ^ 52 * 2 ^ (log2 d + 1) := by
            exact mul_le_mul_of_nonneg_left hdu' h52.le
        _ = 2 ^ (log2 n) * (2 ^ 52 / 2 ^ (log2 n) * 2 ^ (log2 d + 1)) := by
            field_simp
        _ ≤ n * (2 ^ 52 / 2 ^ (log2 n) * 2 ^ (log2 d + 1)) := by
            apply mul_le_mul_of_nonneg_right hnl'
            positivity
    · rw [if_neg hc]
      obtain ⟨hD, hr, hval⟩ := scaled_spec n d e s1 hd
      rw [← hval]
      have hq : (2 : ℚ) ^ 52 ≤ ((scaled n d e s1).1 : ℚ) := by
        have : 2 ^ 52 ≤ (scaled n d e s1).1 := Nat.le_of_not_lt hc
        exact_mod_cast this
      have : (0 : ℚ) ≤ ((scaled n d e s1).2.1 : ℚ) / ((scaled n d e s1).2.2 : ℚ) := by positivity
      linarith

theorem roundQ_elim (P : F64 → Prop) (neg : Bool) (n d : Nat) (e : Int) (hn : 0 < n)
    (hd : 0 < d)
    (h : ∀ (s : Int) (q1 : Nat), -1074 ≤ s →
      (s ≠ -1074 → (2 : ℚ) ^ 52 ≤ (n : ℚ) / (d : ℚ) * (2 : ℚ) ^ (e - s)) →
      |(q1 : ℚ) - (n : ℚ) / (d : ℚ) * (2 : ℚ) ^ (e - s)| ≤ 1 / 2 →
      (∀ B : Nat, (n : ℚ) / (d : ℚ) * (2 : ℚ) ^ (e - s) ≤ (B : ℚ) → q1 ≤ B) →
      P (if 971 < (if q1 = 2 ^ 53 then ((2 : Nat) ^ 52, s + 1) else (q1, s)).2 then inf neg
        else fin neg (if q1 = 2 ^ 53 then ((2 : Nat) ^ 52, s + 1) else (q1, s)).1
          (if q1 = 2 ^ 53 then ((2 : Nat) ^ 52, s + 1) else (q1, s)).2)) :
    P (roundQ neg n d e) := by
  unfold roundQ
  rw [if_neg (Nat.pos_iff_ne_zero.mp hn)]
  simp only []
  generalize hs1 : ((log2 n : Int) - (log2 d : Int) + e - 52) = s1
  generalize hs2 : (if (scaled n d e s1).1 < 2 ^ 52 then s1 - 1 else s1) = s2
  generalize hs : (if s2 < -1074 then -1074 else s2) = s
  obtain ⟨hD, hr, hval⟩ := scaled_spec n d e s hd
  obtain ⟨hs_lo, hs_big⟩ := scale_spec n d e s1 s2 s hn hd hs1 hs2 hs
  obtain ⟨habs, _, hup⟩ := rne_spec (scaled n d e s).1 (scaled n d e s).2.1 (scaled n d e s).2.2
    hD hr
  rw [hval] at habs hup
  exact h s _ hs_lo hs_big habs hup

theorem two_zpow_pos (k : Int) : (0 : ℚ) < (2 : ℚ) ^ k := zpow_pos (by norm_num) k

theorem two_zpow_add (a b : Int) : (2 : ℚ) ^ (a + b) = 2 ^ a * 2 ^ b :=
  zpow_add₀ (by norm_num) a b

theorem half_two_zpow (s : Int) : (1 : ℚ) / 2 * 2 ^ s = 2 ^ (s - 1) := by
  have h : s = (s - 1) + 1 := by ring
  nth_rewrite 1 [h]
  rw [two_zpow_add, zpow_one]
  ring

theorem two_zpow_mono (a b : Int) (h : a ≤ b) : (2 : ℚ) ^ a ≤ 2 ^ b :=
  zpow_le_zpow_right₀ (by norm_num) h

/-- Specification of `roundQ` on values that do not overflow: the result is finite
with the given sign, within half a unit in the last place of the exact value, and
never crosses a representable value. -/
theorem roundQ_spec (neg : Bool) (n d : Nat) (e : Int) (hd : 0 < d)
    (hQ : (n : ℚ) / (d : ℚ) * (2 : ℚ) ^ e ≤ 2 ^ (1000 : Int)) :
    ∃ (m : Nat) (x : Int), roundQ neg n d e = fin neg m x ∧ (n = 0 → m = 0)
      ∧ |(m : ℚ) * (2 : ℚ) ^ x - (n : ℚ) / (d : ℚ) * (2 : ℚ) ^ e|
          ≤ (n : ℚ) / (d : ℚ) * (2 : ℚ) ^ e * 2 ^ (-53 : Int) + 2 ^ (-1075 : Int)
      ∧ (∀ (g : Nat) (t : Int), g < 2 ^ 53 → -1074 ≤ t →
          (n : ℚ) / (d : ℚ) * (2 : ℚ) ^ e ≤ (g : ℚ) * (2 : ℚ) ^ t →
          (m : ℚ) * (2 : ℚ) ^ x ≤ (g : ℚ) * (2 : ℚ) ^ t) := by
  have hd' : (0 : ℚ) < d := by exact_mod_cast hd
  by_cases hn0 : n = 0
  · refine ⟨0, -1074, ?_, fun _ => rfl, ?_, ?_⟩
    · unfold roundQ
      rw [if_pos hn0]
    · subst hn0
      simp only [Nat.cast_zero, zero_mul, zero_div, sub_zero, abs_zero, zero_add]
      exact (two_zpow_pos _).le
    · intro g t _ _ _
      simp only [Nat.cast_zero, zero_mul]
      have := two_zpow_pos t
      positivity
  · have hn : 0 < n := Nat.pos_of_ne_zero hn0
    have hn' : (0 : ℚ) < n := by exact_mod_cast hn
    refine roundQ_elim (fun y => ∃ (m : Nat) (x : Int), y = fin neg m x ∧ (n = 0 → m = 0)
      ∧ |(m : ℚ) * (2 : ℚ) ^ x - (n : ℚ) / (d : ℚ) * (2 : ℚ) ^ e|
          ≤ (n : ℚ) / (d : ℚ) * (2 : ℚ) ^ e * 2 ^ (-53 : Int) + 2 ^ (-1075 : Int)
      ∧ (∀ (g : Nat) (t : Int), g < 2 ^ 53 → -1074 ≤ t →
          (n : ℚ) / (d : ℚ) * (2 : ℚ) ^ e ≤ (g : ℚ) * (2 : ℚ) ^ t →
          (m : ℚ) * (2 : ℚ) ^ x ≤ (g : ℚ) * (2 : ℚ) ^ t)) neg n d e hn hd ?_
    intro s q1 hs_lo hs_big habs hup
    beta_reduce
    -- the exact value is `T * 2 ^ s`
    have hQT : (n : ℚ) / (d : ℚ) * (2 : ℚ) ^ e
        = (n : ℚ) / (d : ℚ) * (2 : ℚ) ^ (e - s) * 2 ^ s := by
      rw [mul_assoc, ← two_zpow_add]
      congr 2
      ring
    generalize hT : (n : ℚ) / (d : ℚ) * (2 : ℚ) ^ (e - s) = T at hs_big habs hup hQT
    generalize hQdef : (n : ℚ) / (d : ℚ) * (2 : ℚ) ^ e = Q at hQ hQT ⊢
    have hTpos : 0 < T := by
      rw [← hT]
      have := two_zpow_pos (e - s)
      positivity
    have h2s := two_zpow_pos s
    have hQpos : 0 < Q := by rw [hQT]; positivity
    -- no overflow
    have hsmall : s < 971 := by
      by_contra hcon
      push_neg at hcon
      have hne : s ≠ -1074 := by omega
      have h1 := hs_big hne
      have h2 : (2 : ℚ) ^ (971 : Int) ≤ 2 ^ s := two_zpow_mono _ _ hcon
      have h3 : (2 : ℚ) ^ (52 : ℕ) * 2 ^ (971 : Int) ≤ T * 2 ^ s :=
        mul_le_mul h1 h2 (two_zpow_pos _).le hTpos.le
      rw [← hQT] at h3
      have e4 : (2 : ℚ) ^ (52 : ℕ) * 2 ^ (971 : Int) = 2 ^ (1000 : Int) * 2 ^ (23 : Int) := by
        rw [← zpow_natCast, ← two_zpow_add, ← two_zpow_add]
        norm_num
      have h5 : (1 : ℚ) < 2 ^ (23 : Int) := by norm_num
      have h6 := two_zpow_pos 1000
      rw [e4] at h3
      nlinarith
    -- the packed pair has the value `q1 * 2 ^ s`
    have hpack : ((if q1 = 2 ^ 53 then ((2 : Nat) ^ 52, s + 1) else (q1, s)).1 : ℚ)
        * (2 : ℚ) ^ (if q1 = 2 ^ 53 then ((2 : Nat) ^ 52, s + 1) else (q1, s)).2
        = (q1 : ℚ) * 2 ^ s := by
      by_cases hq : q1 = 2 ^ 53
      · rw [if_pos hq, hq]
        simp only []
        rw [two_zpow_add]
        push_cast
        norm_num
        ring
      · rw [if_neg hq]
    have hx : ¬ 971 < (if q1 = 2 ^ 53 then ((2 : Nat) ^ 52, s + 1) else (q1, s)).2 := by
      by_cases hq : q1 = 2 ^ 53
      · rw [if_pos hq]
        simp only []
        omega
      · rw [if_neg hq]
        simp only []
        omega
    rw [if_neg hx]
    refine ⟨_, _, rfl, fun h => absurd h hn0, ?_, ?_⟩
    · rw [hpack, hQT]
      have e1 : (q1 : ℚ) * 2 ^ s - T * 2 ^ s = ((q1 : ℚ) - T) * 2 ^ s := by ring
      rw [e1, abs_mul, abs_of_pos h2s]
      have h1 : |(q1 : ℚ) - T| * 2 ^ s ≤ 1 / 2 * 2 ^ s :=
        mul_le_mul_of_nonneg_right habs h2s.le
      by_cases hsub : s = -1074
      · have e2 : (1 : ℚ) / 2 * 2 ^ s = 2 ^ (-1075 : Int) := by
          rw [half_two_zpow, hsub]
          norm_num
        have h3 : 0 ≤ T * 2 ^ s * 2 ^ (-53 : Int) := by
          have := two_zpow_pos (-53)
          positivity
        exact le_trans h1 (by rw [e2]; exact le_add_of_nonneg_left h3)
      · have h2 := hs_big hsub
        have e2 : T * 2 ^ s * 2 ^ (-53 : Int) = T * 2 ^ (-53 : Int) * 2 ^ s := by ring
        have h3 : (1 : ℚ) / 2 ≤ T * 2 ^ (-53 : Int) := by
          have : (2 : ℚ) ^ (52 : ℕ) * 2 ^ (-53 : Int) ≤ T * 2 ^ (-53 : Int) :=
            mul_le_mul_of_nonneg_right h2 (two_zpow_pos _).le
          have e3 : (2 : ℚ) ^ (52 : ℕ) * 2 ^ (-53 : Int) = 1 / 2 := by
            rw [← zpow_natCast, ← two_zpow_add]
            norm_num
          linarith
        have h4 : (1 : ℚ) / 2 * 2 ^ s ≤ T * 2 ^ (-53 : Int) * 2 ^ s :=
          mul_le_mul_of_nonneg_right h3 h2s.le
        have h5 := two_zpow_pos (-1075)
        rw [e2]
        exact le_trans h1 (le_trans h4 (le_add_of_nonneg_right h5.le))
    · intro g t hg ht hle
      rw [hpack]
      by_cases hst : s ≤ t
      · -- the bound is an integer multiple of `2 ^ s`
        have hk : ((t - s).toNat : Int) = t - s := Int.toNat_of_nonneg (by omega)
        have hgt : (g : ℚ) * (2 : ℚ) ^ t = ((g * 2 ^ (t - s).toNat : Nat) : ℚ) * 2 ^ s := by
          push_cast
          rw [mul_assoc, ← zpow_natCast, hk, ← two_zpow_add]
          congr 2
          ring
        rw [hgt] at hle ⊢
        rw [hQT] at hle
        have hTB : T ≤ ((g * 2 ^ (t - s).toNat : Nat) : ℚ) := le_of_mul_le_mul_right hle h2s
        have := hup _ hTB
        have h' : (q1 : ℚ) ≤ ((g * 2 ^ (t - s).toNat : Nat) : ℚ) := by exact_mod_cast this
        exact mul_le_mul_of_nonneg_right h' h2s.le
      · exfalso
        push_neg at hst
        have hne : s ≠ -1074 := by omega
        have h1 := hs_big hne
        have h2 : (2 : ℚ) ^ (t + 1) ≤ 2 ^ s := two_zpow_mono _ _ (by omega)
        have h3 : (2 : ℚ) ^ (52 : ℕ) * 2 ^ (t + 1) ≤ T * 2 ^ s :=
          mul_le_mul h1 h2 (two_zpow_pos _).le hTpos.le
        have hg' : (g : ℚ) < 2 ^ 53 := by exact_mod_cast hg
        have h4 : (g : ℚ) * 2 ^ t < 2 ^ 53 * 2 ^ t :=
          mul_lt_mul_of_pos_right hg' (two_zpow_pos t)
        have e5 : (2 : ℚ) ^ (52 : ℕ) * 2 ^ (t + 1) = 2 ^ 53 * 2 ^ t := by
          rw [two_zpow_add]
          norm_num
          ring
        rw [← hQT] at h3
        linarith

/-! ## Float64: comparisons and exact values -/

theorem toIntAt_val (a : Bool) (m : Nat) (e lo : Int) (h : lo ≤ e) :
    ((toIntAt a m e lo : Int) : ℚ) * (2 : ℚ) ^ lo = toRat (fin a m e) := by
  have hk : ((e - lo).toNat : Int) = e - lo := Int.toNat_of_nonneg (by omega)
  have hz : (2 : ℚ) ^ (e - lo).toNat * (2 : ℚ) ^ lo = 2 ^ e := by
    rw [← zpow_natCast, hk, ← two_zpow_add]
    congr 1
    ring
  unfold toIntAt toRat
  cases a
  · simp only [Bool.false_eq_true, if_false]
    push_cast
    rw [mul_assoc, hz]
  · simp only [if_true]
    push_cast
    rw [neg_mul, neg_mul, mul_assoc, hz]

theorem lt_fin_iff (a : Bool) (m : Nat) (e : Int) (b : Bool) (n : Nat) (f : Int) :
    lt (fin a m e) (fin b n f) = true ↔ toRat (fin a m e) < toRat (fin b n f) := by
  unfold lt
  simp only [decide_eq_true_eq]
  rw [← toIntAt_val a m e (min e f) (min_le_left e f),
    ← toIntAt_val b n f (min e f) (min_le_right e f)]
  rw [mul_lt_mul_right (two_zpow_pos _)]
  exact Int.cast_lt.symm

theorem le_fin_iff (a : Bool) (m : Nat) (e : Int) (b : Bool) (n : Nat) (f : Int) :
    le (fin a m e) (fin b n f) = true ↔ toRat (fin a m e) ≤ toRat (fin b n f) := by
  unfold le
  simp only [decide_eq_true_eq]
  rw [← toIntAt_val a m e (min e f) (min_le_left e f),
    ← toIntAt_val b n f (min e f) (min_le_right e f)]
  rw [mul_le_mul_right (two_zpow_pos _)]
  exact Int.cast_le.symm

theorem IsVal.toRat_eq {x : F64} {v : ℚ} (h : IsVal x v) : toRat x = v := by
  obtain ⟨a, m, e, rfl, hs, rfl⟩ := h
  unfold toRat
  rcases hs with h | h
  · subst h
    simp only [Bool.false_eq_true, if_false]
  · subst h
    simp only [Nat.cast_zero, neg_zero, ite_self]

theorem IsVal.nonneg {x : F64} {v : ℚ} (h : IsVal x v) : 0 ≤ v := by
  obtain ⟨a, m, e, rfl, hs, rfl⟩ := h
  have := two_zpow_pos e
  positivity

theorem IsVal.lt_iff {x y : F64} {vx vy : ℚ} (hx : IsVal x vx) (hy : IsVal y vy) :
    x < y ↔ vx < vy := by
  have e1 := hx.toRat_eq
  have e2 := hy.toRat_eq
  obtain ⟨a, m, e, rfl, _, _⟩ := hx
  obtain ⟨b, n, f, rfl, _, _⟩ := hy
  rw [← e1, ← e2]
  exact lt_fin_iff a m e b n f

theorem IsVal.le_iff {x y : F64} {vx vy : ℚ} (hx : IsVal x vx) (hy : IsVal y vy) :
    x ≤ y ↔ vx ≤ vy := by
  have e1 := hx.toRat_eq
  have e2 := hy.toRat_eq
  obtain ⟨a, m, e, rfl, _, _⟩ := hx
  obtain ⟨b, n, f, rfl, _, _⟩ := hy
  rw [← e1, ← e2]
  exact le_fin_iff a m e b n f

/-- A float between two finite non-negative floats is itself finite and non-negative
with a value between theirs. -/
theorem isVal_of_between {lo hi y : F64} {vlo vhi : ℚ} (hlo : IsVal lo vlo)
    (hhi : IsVal hi vhi) (h1 : lo ≤ y) (h2 : y ≤ hi) :
    ∃ v, IsVal y v ∧ vlo ≤ v ∧ v ≤ vhi := by
  have e1 := hlo.toRat_eq
  have e2 := hhi.toRat_eq
  have hpos := hlo.nonneg
  obtain ⟨a, m, e, rfl, _, _⟩ := hlo
  obtain ⟨b, n, f, rfl, _, _⟩ := hhi
  cases y with
  | nan => exact absurd h1 (fun h => Bool.false_ne_true h)
  | inf c =>
    cases c
    · exact absurd h2 (fun h => Bool.false_ne_true h)
    · exact absurd h1 (fun h => Bool.false_ne_true h)
  | fin c k g =>
    have h1' := (le_fin_iff a m e c k g).mp h1
    have h2' := (le_fin_iff c k g b n f).mp h2
    rw [e1] at h1'
    rw [e2] at h2'
    have h2g := two_zpow_pos g
    have hk0 : (0 : ℚ) ≤ k := by positivity
    have hc : c = false ∨ k = 0 := by
      cases c
      · exact Or.inl rfl
      · right
        have hv : toRat (fin true k g) = -(k : ℚ) * 2 ^ g := by
          unfold toRat
          simp only [if_true]
        rw [hv] at h1'
        have h3 : (k : ℚ) * 2 ^ g ≤ 0 := by linarith
        have h4 : (k : ℚ) ≤ 0 := by
          by_contra hcon
          push_neg at hcon
          have := mul_pos hcon h2g
          linarith
        have h5 : (k : ℚ) = 0 := le_antisymm h4 hk0
        exact_mod_cast h5
    have hy : IsVal (fin c k g) ((k : ℚ) * 2 ^ g) := ⟨c, k, g, rfl, hc, rfl⟩
    rw [hy.toRat_eq] at h1' h2'
    exact ⟨_, hy, h1', h2'⟩

/-! ## Float64: the arithmetic operations on non-negative values -/

theorem rnd_zero : Rnd 0 0 := by
  refine ⟨?_, ?_⟩
  · simp only [sub_zero, abs_zero, zero_mul, zero_add]
    exact (two_zpow_pos _).le
  · intro g t _ _ _
    have := two_zpow_pos t
    positivity

/-- The rounding of a non-negative exact value, as a finite non-negative float. -/
theorem roundQ_val (a : Bool) (n d : Nat) (e : Int) (hd : 0 < d) (ha : a = false ∨ n = 0)
    (hQ : (n : ℚ) / (d : ℚ) * (2 : ℚ) ^ e ≤ 2 ^ (1000 : Int)) :
    ∃ v, IsVal (roundQ a n d e) v ∧ Rnd v ((n : ℚ) / (d : ℚ) * (2 : ℚ) ^ e) := by
  obtain ⟨m, x, heq, hm0, hab, hgrid⟩ := roundQ_spec a n d e hd hQ
  refine ⟨(m : ℚ) * 2 ^ x, ⟨a, m, x, heq, ?_, rfl⟩, hab, hgrid⟩
  rcases ha with h | h
  · exact Or.inl h
  · exact Or.inr (hm0 h)

theorem mul_val {x y : F64} {vx vy : ℚ} (hx : IsVal x vx) (hy : IsVal y vy)
    (hQ : vx * vy ≤ 2 ^ (1000 : Int)) :
    ∃ v, IsVal (x * y) v ∧ Rnd v (vx * vy) := by
  obtain ⟨a, m, e, rfl, hsa, rfl⟩ := hx
  obtain ⟨b, n, f, rfl, hsb, rfl⟩ := hy
  have hmul : fin a m e * fin b n f = roundQ (xor a b) (m * n) 1 (e + f) := rfl
  have hval : ((m * n : Nat) : ℚ) / ((1 : Nat) : ℚ) * (2 : ℚ) ^ (e + f)
      = (m : ℚ) * 2 ^ e * ((n : ℚ) * 2 ^ f) := by
    rw [two_zpow_add]
    push_cast
    ring
  rw [hmul, ← hval]
  apply roundQ_val _ _ _ _ (by norm_num)
  · rcases hsa with h | h
    · rcases hsb with h' | h'
      · left
        rw [h, h']
        rfl
      · right
        rw [h', Nat.mul_zero]
    · right
      rw [h, Nat.zero_mul]
  · rw [hval]
    exact hQ

theorem div_val {x y : F64} {vx vy : ℚ} (hx : IsVal x vx) (hy : IsVal y vy) (hpos : 0 < vy)
    (hQ : vx / vy ≤ 2 ^ (1000 : Int)) :
    ∃ v, IsVal (x / y) v ∧ Rnd v (vx / vy) := by
  obtain ⟨a, m, e, rfl, hsa, rfl⟩ := hx
  obtain ⟨b, n, f, rfl, hsb, rfl⟩ := hy
  have hn : n ≠ 0 := by
    rintro rfl
    simp only [Nat.cast_zero, zero_mul, lt_self_iff_false] at hpos
  have hb : b = false := by
    rcases hsb with h | h
    · exact h
    · exact absurd h hn
  have hdiv : fin a m e / fin b n f = roundQ (xor a b) m n (e - f) := by
    show (if n = 0 then (if m = 0 then nan else inf (xor a b))
      else roundQ (xor a b) m n (e - f)) = _
    rw [if_neg hn]
  have hn' : (n : ℚ) ≠ 0 := by exact_mod_cast hn
  have h2f := two_zpow_pos f
  have hval : (m : ℚ) / (n : ℚ) * (2 : ℚ) ^ (e - f)
      = (m : ℚ) * 2 ^ e / ((n : ℚ) * 2 ^ f) := by
    rw [sub_eq_add_neg, two_zpow_add, zpow_neg]
    field_simp
  rw [hdiv, ← hval]
  apply roundQ_val _ _ _ _ (Nat.pos_of_ne_zero hn)
  · rcases hsa with h | h
    · left
      rw [h, hb]
      rfl
    · exact Or.inr h
  · rw [hval]
    exact hQ

theorem toIntAt_nonneg (a : Bool) (m : Nat) (e lo : Int) (hs : a = false ∨ m = 0) :
    toIntAt a m e lo = ((m * 2 ^ (e - lo).toNat : Nat) : Int) := by
  unfold toIntAt
  rcases hs with h | h
  · subst h
    simp only [Bool.false_eq_true, if_false]
  · subst h
    simp only [Nat.zero_mul, Nat.cast_zero, neg_zero, ite_self]

theorem add_val {x y : F64} {vx vy : ℚ} (hx : IsVal x vx) (hy : IsVal y vy)
    (hQ : vx + vy ≤ 2 ^ (1000 : Int)) :
    ∃ v, IsVal (x + y) v ∧ Rnd v (vx + vy) := by
  have e1 := hx.toRat_eq
  have e2 := hy.toRat_eq
  obtain ⟨a, m, e, rfl, hsa, rfl⟩ := hx
  obtain ⟨b, n, f, rfl, hsb, rfl⟩ := hy
  have hadd : fin a m e + fin b n f
      = (if toIntAt a m e (min e f) + toIntAt b n f (min e f) = 0 then fin (a && b) 0 (-1074)
        else roundQ (decide (toIntAt a m e (min e f) + toIntAt b n f (min e f) < 0))
          (toIntAt a m e (min e f) + toIntAt b n f (min e f)).natAbs 1 (min e f)) := rfl
  have hzval : (((toIntAt a m e (min e f) + toIntAt b n f (min e f) : Int)) : ℚ)
      * (2 : ℚ) ^ (min e f) = (m : ℚ) * 2 ^ e + (n : ℚ) * 2 ^ f := by
    push_cast
    rw [add_mul, toIntAt_val a m e _ (min_le_left e f), toIntAt_val b n f _ (min_le_right e f),
      e1, e2]
  have hznn : 0 ≤ toIntAt a m e (min e f) + toIntAt b n f (min e f) := by
    rw [toIntAt_nonneg a m e _ hsa, toIntAt_nonneg b n f _ hsb]
    positivity
  generalize toIntAt a m e (min e f) + toIntAt b n f (min e f) = z at hadd hzval hznn
  rw [hadd]
  by_cases hz : z = 0
  · rw [if_pos hz]
    rw [hz] at hzval
    simp only [Int.cast_zero, zero_mul] at hzval
    rw [← hzval]
    exact ⟨0, ⟨a && b, 0, -1074, rfl, Or.inr rfl, by simp⟩, rnd_zero⟩
  · rw [if_neg hz]
    have hdec : decide (z < 0) = false := by
      simp only [decide_eq_false_iff_not, not_lt]
      exact hznn
    have hval : ((z.natAbs : Nat) : ℚ) / ((1 : Nat) : ℚ) * (2 : ℚ) ^ (min e f)
        = (m : ℚ) * 2 ^ e + (n : ℚ) * 2 ^ f := by
      rw [← hzval]
      have : ((z.natAbs : Nat) : Int) = z := Int.natAbs_of_nonneg hznn
      have h' : ((z.natAbs : Nat) : ℚ) = (z : ℚ) := by rw [← Int.cast_natCast, this]
      rw [h']
      simp
    rw [hdec, ← hval]
    apply roundQ_val _ _ _ _ (by norm_num) (Or.inl rfl)
    rw [hval]
    exact hQ

theorem natCast_val (n : Nat) (hn : (n : ℚ) ≤ 2 ^ (1000 : Int)) :
    ∃ v, IsVal ((n : Nat) : F64) v ∧ Rnd v (n : ℚ) := by
  have hc : ((n : Nat) : F64) = roundQ false n 1 0 := rfl
  have hval : (n : ℚ) / ((1 : Nat) : ℚ) * (2 : ℚ) ^ (0 : Int) = (n : ℚ) := by simp
  rw [hc]
  have := roundQ_val false n 1 0 (by norm_num) (Or.inl rfl) (by rw [hval]; exact hn)
  rw [hval] at this
  exact this

/-! ## Float64: the constants of the program -/

theorem isVal_fin (m : Nat) (k : Nat) (v : ℚ) (h : v = (m : ℚ) / 2 ^ k) :
    IsVal (fin false m (-(k : Int))) v := by
  refine ⟨false, m, _, rfl, Or.inl rfl, ?_⟩
  rw [h, zpow_neg, zpow_natCast]
  rfl

theorem rep_thr : (0.04045 : F64) = fin false 5829459357668370 (-(57 : Nat)) := by decide!
theorem rep_055 : (0.055 : F64) = fin false 7926335344172073 (-(57 : Nat)) := by decide!
theorem rep_1055 : (1.055 : F64) = fin false 4751297606875873 (-(52 : Nat)) := by decide!
theorem rep_1292 : (12.92 : F64) = fin false 7273313398203351 (-(49 : Nat)) := by decide!
theorem rep_009 : (0.09 : F64) = fin false 6485183463413514 (-(56 : Nat)) := by decide!
theorem rep_0001 : (0.001 : F64) = fin false 4611686018427388 (-(62 : Nat)) := by decide!
theorem rep_A : (0.6491852651246980 : F64) = fin false 5847341036220013 (-(53 : Nat)) := by
  decide!
theorem rep_B : (0.1034883891428110 : F64) = fin false 7457124332491784 (-(56 : Nat)) := by
  decide!
theorem rep_C : (0.1973263457324920 : F64) = fin false 7109430856889861 (-(55 : Nat)) := by
  decide!
theorem rep_D : (0.2340599935483600 : F64) = fin false 8432899997813878 (-(55 : Nat)) := by
  decide!
theorem rep_E : (0.7433166037561910 : F64) = fin false 6695200759389369 (-(53 : Nat)) := by
  decide!
theorem rep_F : (0.0226234026954449 : F64) = fin false 6520751868739733 (-(58 : Nat)) := by
  decide!
theorem rep_G : (0.0 : F64) = fin false 0 (-(1074 : Nat)) := by decide!
theorem rep_H : (0.0530940431254422 : F64) = fin false 7651658010730705 (-(57 : Nat)) := by
  decide!
theorem rep_I : (1.0369059568745600 : F64) = fin false 4669809280998516 (-(52 : Nat)) := by
  decide!
theorem rep_255 : (maxByteF : F64) = fin false 8972014882652160 (-(45 : Nat)) := by decide!
theorem rep_65535 : (maxColorF : F64) = fin false 9007061815787520 (-(37 : Nat)) := by decide!
theorem rep_one : one = fin false 4503599627370496 (-(52 : Nat)) := by decide!
theorem rep_zero : zero = fin false 0 (-(1074 : Nat)) := by decide!

theorem val_thr : IsVal (0.04045 : F64) (5829459357668370 / 2 ^ 57) := by
  rw [rep_thr]; exact isVal_fin _ _ _ (by norm_num)
theorem val_one : IsVal one 1 := by
  rw [rep_one]; exact isVal_fin _ _ _ (by norm_num)
theorem val_zero : IsVal zero 0 := by
  rw [rep_zero]; exact isVal_fin _ _ _ (by norm_num)
theorem val_255 : IsVal (maxByteF : F64) 255 := by
  rw [rep_255]; exact isVal_fin _ _ _ (by norm_num)

theorem million_le_big : (1000000 : ℚ) ≤ 2 ^ (1000 : Int) := by
  have h := two_zpow_mono 20 1000 (by norm_num)
  have e : (2 : ℚ) ^ (20 : Int) = 1048576 := by norm_num
  linarith

theorem eps_le : (2 : ℚ) ^ (-53 : Int) ≤ 1 / 10 ^ 15 := by
  rw [zpow_neg]
  norm_num

theorem eta_le : (2 : ℚ) ^ (-1075 : Int) ≤ 1 / 10 ^ 300 := by
  rw [zpow_neg]
  norm_num

/-- Usable form of a correct rounding: relative error `1e-15`, absolute error
`1e-300`. -/
theorem Rnd.bounds {v Q : ℚ} (h : Rnd v Q) (hQ : 0 ≤ Q) :
    Q * (1 - 1 / 10 ^ 15) - 1 / 10 ^ 300 ≤ v ∧ v ≤ Q * (1 + 1 / 10 ^ 15) + 1 / 10 ^ 300 := by
  obtain ⟨hab, _⟩ := h
  rw [abs_le] at hab
  have h1 := eps_le
  have h2 := eta_le
  have h3 : Q * 2 ^ (-53 : Int) ≤ Q * (1 / 10 ^ 15) := mul_le_mul_of_nonneg_left h1 hQ
  generalize (2 : ℚ) ^ (-1075 : Int) = w at hab h2
  generalize Q * (2 : ℚ) ^ (-53 : Int) = z at hab h3
  obtain ⟨hl, hu⟩ := hab
  constructor <;> linarith

/-- A correct rounding does not exceed a float64 value `m / 2^k` bounding the exact
value. -/
theorem Rnd.le_fin {v Q : ℚ} (h : Rnd v Q) (m k : Nat) (hm : m < 2 ^ 53) (hk : k ≤ 1074)
    (hQ : Q ≤ (m : ℚ) / 2 ^ k) : v ≤ (m : ℚ) / 2 ^ k := by
  have e : (m : ℚ) / 2 ^ k = (m : ℚ) * (2 : ℚ) ^ (-(k : Int)) := by
    rw [zpow_neg, zpow_natCast]
    rfl
  rw [e] at hQ ⊢
  exact h.2 m _ hm (by omega) hQ

/-! ## Float64: normalisation and gamma correction -/

theorem val_055 : IsVal (0.055 : F64) (7926335344172073 / 2 ^ 57) := by
  rw [rep_055]; exact isVal_fin _ _ _ (by norm_num)
theorem val_1055 : IsVal (1.055 : F64) (4751297606875873 / 2 ^ 52) := by
  rw [rep_1055]; exact isVal_fin _ _ _ (by norm_num)
theorem val_1292 : IsVal (12.92 : F64) (7273313398203351 / 2 ^ 49) := by
  rw [rep_1292]; exact isVal_fin _ _ _ (by norm_num)
theorem val_009 : IsVal (0.09 : F64) (6485183463413514 / 2 ^ 56) := by
  rw [rep_009]; exact isVal_fin _ _ _ (by norm_num)
theorem val_0001 : IsVal (0.001 : F64) (4611686018427388 / 2 ^ 62) := by
  rw [rep_0001]; exact isVal_fin _ _ _ (by norm_num)
theorem val_65535 : IsVal (maxColorF : F64) 65535 := by
  rw [rep_65535]; exact isVal_fin _ _ _ (by norm_num)

theorem le_big {v : ℚ} (h : v ≤ 1000000) : v ≤ 2 ^ (1000 : Int) := le_trans h million_le_big

/-- A channel below full scale normalises to a float64 value that is at most
`1 - 1e-5` and, unless the channel is `0`, at least `1e-5`. -/
theorem norm_val (r M : Nat) (mx : F64) (hmx : IsVal mx (M : ℚ))
    (hM : M = 255 ∨ M = 65535) (hr : r < M) :
    ∃ w, IsVal ((r : F64) / mx) w ∧ w ≤ 1 - 1 / 10 ^ 5 ∧ (r ≠ 0 → 1 / 10 ^ 5 ≤ w) := by
  have hrM : (r : ℚ) + 1 ≤ M := by exact_mod_cast hr
  have hr0 : (0 : ℚ) ≤ r := by positivity
  have hMle : (M : ℚ) ≤ 65535 := by
    rcases hM with h | h <;> rw [h] <;> norm_num
  obtain ⟨vr, hvr, hrnd⟩ := natCast_val r (le_big (by linarith))
  have hvr_le : vr ≤ (r : ℚ) := by
    have := hrnd.le_fin r 0 (by
      have : r < 65535 := by rcases hM with h | h <;> omega
      omega) (by norm_num) (by simp)
    simpa using this
  obtain ⟨hvr_lo, _⟩ := hrnd.bounds hr0
  have hvr0 := hvr.nonneg
  have hMpos : (0 : ℚ) < M := by linarith
  have hQle : vr / (M : ℚ) ≤ 1 - 1 / 65535 := by
    rw [div_le_iff₀ hMpos]
    linarith
  obtain ⟨w, hw, hwr⟩ := div_val hvr hmx hMpos (le_big (by linarith))
  have hQ0 : 0 ≤ vr / (M : ℚ) := by positivity
  obtain ⟨hw_lo, hw_hi⟩ := hwr.bounds hQ0
  refine ⟨w, hw, by linarith, ?_⟩
  intro hne
  have h1 : (1 : ℚ) ≤ r := by exact_mod_cast Nat.pos_of_ne_zero hne
  have hQlo : (1 - 1 / 10 ^ 14) / 65535 ≤ vr / (M : ℚ) := by
    rw [div_le_div_iff₀ (by norm_num) hMpos]
    have : (1 - 1 / 10 ^ 14 : ℚ) ≤ vr := by linarith
    linarith
  linarith

/-- Gamma correction of a normalised float64 channel, given the assumption on
`math.Pow`: the result is a finite float64 value in `[0, 1]`, and at least `1e-7` when
the channel is at least `1e-5`. -/
theorem agc_val (pow : F64 → F64 → F64) (hp : PowRange pow) (n : F64) (w : ℚ)
    (hn : IsVal n w)
    (hw : w + 7926335344172073 / 2 ^ 57 ≤ 4751297606875873 / 2 ^ 52 ∨ n = one) :
    ∃ v, IsVal (ApplyGammaCorrection pow n) v ∧ v ≤ 1 ∧ (1 / 10 ^ 5 ≤ w → 1 / 10 ^ 7 ≤ v) := by
  have hw0 := hn.nonneg
  -- the power-law branch with a base in `[0.09, 1]`
  have hpowb : ∀ base : F64, (0.09 : F64) ≤ base → base ≤ one →
      ∃ v, IsVal (pow base 2.4) v ∧ v ≤ 1 ∧ (1 / 10 ^ 5 ≤ w → 1 / 10 ^ 7 ≤ v) := by
    intro base h1 h2
    obtain ⟨h3, h4⟩ := hp base h1 h2
    obtain ⟨v, hv, hlo, hhi⟩ := isVal_of_between val_0001 val_one h3 h4
    refine ⟨v, hv, hhi, fun _ => ?_⟩
    have : (1 : ℚ) / 10 ^ 7 ≤ 4611686018427388 / 2 ^ 62 := by norm_num
    linarith
  rcases hw with hw | hone
  · by_cases hgt : n > 0.04045
    · have hgt' : (5829459357668370 / 2 ^ 57 : ℚ) < w := (val_thr.lt_iff hn).mp hgt
      unfold ApplyGammaCorrection
      rw [if_pos hgt]
      obtain ⟨vt, hvt, hrt⟩ := add_val hn val_055 (le_big (by linarith))
      have hvt_hi : vt ≤ 4751297606875873 / 2 ^ 52 :=
        hrt.le_fin 4751297606875873 52 (by norm_num) (by norm_num) hw
      obtain ⟨hvt_lo, _⟩ := hrt.bounds (by linarith)
      have hQ1 : vt / (4751297606875873 / 2 ^ 52) ≤ 1 := by
        rw [div_le_one (by norm_num)]
        exact hvt_hi
      obtain ⟨vb, hvb, hrb⟩ := div_val hvt val_1055 (by norm_num) (le_big (by linarith))
      have hvb_hi : vb ≤ 1 := by
        have := hrb.le_fin 4503599627370496 52 (by norm_num) (by norm_num)
          (by rw [show ((4503599627370496 : Nat) : ℚ) / 2 ^ 52 = 1 by norm_num]; exact hQ1)
        rw [show ((4503599627370496 : Nat) : ℚ) / 2 ^ 52 = 1 by norm_num] at this
        exact this
      have hvt0 := hvt.nonneg
      obtain ⟨hvb_lo, _⟩ := hrb.bounds (by positivity)
      have hb1 : (0.09 : F64) ≤ (n + 0.055) / 1.055 := by
        rw [val_009.le_iff hvb]
        have e : vt / (4751297606875873 / 2 ^ 52) = vt * (2 ^ 52 / 4751297606875873) := by
          field_simp
        rw [e] at hvb_lo
        linarith
      have hb2 : (n + 0.055) / 1.055 ≤ one := by
        rw [hvb.le_iff val_one]
        exact hvb_hi
      exact hpowb _ hb1 hb2
    · have hle : w ≤ (5829459357668370 / 2 ^ 57 : ℚ) := by
        by_contra hcon
        push_neg at hcon
        exact hgt ((val_thr.lt_iff hn).mpr hcon)
      unfold ApplyGammaCorrection
      rw [if_neg hgt]
      clear hgt
      have e : w / (7273313398203351 / 2 ^ 49) = w * (2 ^ 49 / 7273313398203351) := by
        field_simp
      obtain ⟨v, hv, hrv⟩ := div_val hn val_1292 (by norm_num)
        (le_big (by rw [e]; linarith))
      obtain ⟨hv_lo, hv_hi⟩ := hrv.bounds (by positivity)
      rw [e] at hv_lo hv_hi
      refine ⟨v, hv, by linarith, fun h5 => by linarith⟩
  · subst hone
    have h2 : one > (0.04045 : F64) := by decide!
    have h3 : (one + 0.055) / 1.055 = one := by decide!
    have h4 : (0.09 : F64) ≤ one := by decide!
    have h5 : one ≤ one := by decide!
    unfold ApplyGammaCorrection
    rw [if_pos h2, h3]
    exact hpowb one h4 h5

/-! ## Float64: the matrix rows and the projection -/

theorem val_A : IsVal (0.6491852651246980 : F64) (5847341036220013 / 2 ^ 53) := by
  rw [rep_A]; exact isVal_fin _ _ _ (by norm_num)
theorem val_B : IsVal (0.1034883891428110 : F64) (7457124332491784 / 2 ^ 56) := by
  rw [rep_B]; exact isVal_fin _ _ _ (by norm_num)
theorem val_C : IsVal (0.1973263457324920 : F64) (7109430856889861 / 2 ^ 55) := by
  rw [rep_C]; exact isVal_fin _ _ _ (by norm_num)
theorem val_D : IsVal (0.2340599935483600 : F64) (8432899997813878 / 2 ^ 55) := by
  rw [rep_D]; exact isVal_fin _ _ _ (by norm_num)
theorem val_E : IsVal (0.7433166037561910 : F64) (6695200759389369 / 2 ^ 53) := by
  rw [rep_E]; exact isVal_fin _ _ _ (by norm_num)
theorem val_F : IsVal (0.0226234026954449 : F64) (6520751868739733 / 2 ^ 58) := by
  rw [rep_F]; exact isVal_fin _ _ _ (by norm_num)
theorem val_G : IsVal (0.0 : F64) 0 := by
  rw [rep_G]; exact isVal_fin _ _ _ (by norm_num)
theorem val_H : IsVal (0.0530940431254422 : F64) (7651658010730705 / 2 ^ 57) := by
  rw [rep_H]; exact isVal_fin _ _ _ (by norm_num)
theorem val_I : IsVal (1.0369059568745600 : F64) (4669809280998516 / 2 ^ 52) := by
  rw [rep_I]; exact isVal_fin _ _ _ (by norm_num)

/-- One row of the matrix in float64: the computed combination is within relative
error `1e-14` and absolute error `1e-299` of the exact combination. -/
theorem row_val {cr cg cb P Q R : F64} {a b c p q r : ℚ}
    (ha : IsVal cr a) (hb : IsVal cg b) (hc : IsVal cb c)
    (hp : IsVal P p) (hq : IsVal Q q) (hr : IsVal R r)
    (ha1 : a ≤ 1) (hb1 : b ≤ 1) (hc1 : c ≤ 1) (hp2 : p ≤ 2) (hq2 : q ≤ 2) (hr2 : r ≤ 2) :
    ∃ v, IsVal (cr * P + cg * Q + cb * R) v
      ∧ (a * p + b * q + c * r) * (1 - 1 / 10 ^ 14) - 1 / 10 ^ 299 ≤ v
      ∧ v ≤ (a * p + b * q + c * r) * (1 + 1 / 10 ^ 14) + 1 / 10 ^ 299 := by
  have ha0 := ha.nonneg
  have hb0 := hb.nonneg
  have hc0 := hc.nonneg
  have hp0 := hp.nonneg
  have hq0 := hq.nonneg
  have hr0 := hr.nonneg
  have x1 : 0 ≤ a * p := mul_nonneg ha0 hp0
  have x2 : 0 ≤ b * q := mul_nonneg hb0 hq0
  have x3 : 0 ≤ c * r := mul_nonneg hc0 hr0
  have y1 : a * p ≤ 2 := by nlinarith
  have y2 : b * q ≤ 2 := by nlinarith
  have y3 : c * r ≤ 2 := by nlinarith
  obtain ⟨m1, hm1, r1⟩ := mul_val ha hp (le_big (by linarith))
  obtain ⟨m2, hm2, r2⟩ := mul_val hb hq (le_big (by linarith))
  obtain ⟨m3, hm3, r3⟩ := mul_val hc hr (le_big (by linarith))
  obtain ⟨l1, h1⟩ := r1.bounds x1
  obtain ⟨l2, h2⟩ := r2.bounds x2
  obtain ⟨l3, h3⟩ := r3.bounds x3
  generalize a * p = u1 at x1 y1 l1 h1 ⊢
  generalize b * q = u2 at x2 y2 l2 h2 ⊢
  generalize c * r = u3 at x3 y3 l3 h3 ⊢
  have n1 := hm1.nonneg
  have n2 := hm2.nonneg
  have n3 := hm3.nonneg
  obtain ⟨s1, hs1, r4⟩ := add_val hm1 hm2 (le_big (by linarith))
  obtain ⟨l4, h4⟩ := r4.bounds (by linarith)
  have n4 := hs1.nonneg
  obtain ⟨s2, hs2, r5⟩ := add_val hs1 hm3 (le_big (by linarith))
  obtain ⟨l5, h5⟩ := r5.bounds (by linarith)
  refine ⟨s2, hs2, ?_, ?_⟩
  · linarith
  · linarith

/-- The projection in float64: for tristimulus values with `X, Y ≥ 1e-9`, `Z ≥ 0`,
all at most `10`, and `X, Y ≤ 0.95 (X + Y + Z)`, the divisor is positive and both
quotients are finite float64 values strictly between `0` and `1`. -/
theorem proj_val {X Y Z : F64} {vX vY vZ : ℚ}
    (hX : IsVal X vX) (hY : IsVal Y vY) (hZ : IsVal Z vZ)
    (hXlo : 1 / 10 ^ 9 ≤ vX) (hYlo : 1 / 10 ^ 9 ≤ vY)
    (hXhi : vX ≤ 10) (hYhi : vY ≤ 10) (hZhi : vZ ≤ 10)
    (hXr : vX ≤ 95 / 100 * (vX + vY + vZ)) (hYr : vY ≤ 95 / 100 * (vX + vY + vZ)) :
    ∃ vs vx vy, IsVal (X + Y + Z) vs ∧ 0 < vs
      ∧ IsVal (X / (X + Y + Z)) vx ∧ 0 < vx ∧ vx < 1
      ∧ IsVal (Y / (X + Y + Z)) vy ∧ 0 < vy ∧ vy < 1 := by
  have hZ0 := hZ.nonneg
  obtain ⟨s1, hs1, r1⟩ := add_val hX hY (le_big (by linarith))
  obtain ⟨l1, h1⟩ := r1.bounds (by linarith)
  obtain ⟨vs, hvs, r2⟩ := add_val hs1 hZ (le_big (by linarith))
  have n1 := hs1.nonneg
  obtain ⟨l2, h2⟩ := r2.bounds (by linarith)
  have hvs_lo : 999 / 1000 * (vX + vY + vZ) ≤ vs := by linarith
  have hvs_hi : vs ≤ 40 := by linarith
  have hvs_pos : 0 < vs := by linarith
  have qx_hi : vX / vs ≤ 96 / 100 := by
    rw [div_le_iff₀ hvs_pos]
    linarith
  have qy_hi : vY / vs ≤ 96 / 100 := by
    rw [div_le_iff₀ hvs_pos]
    linarith
  have qx_lo : 1 / 10 ^ 11 ≤ vX / vs := by
    rw [le_div_iff₀ hvs_pos]
    linarith
  have qy_lo : 1 / 10 ^ 11 ≤ vY / vs := by
    rw [le_div_iff₀ hvs_pos]
    linarith
  obtain ⟨vx, hvx, r3⟩ := div_val hX hvs hvs_pos (le_big (by linarith))
  obtain ⟨vy, hvy, r4⟩ := div_val hY hvs hvs_pos (le_big (by linarith))
  obtain ⟨l3, h3⟩ := r3.bounds (by linarith)
  obtain ⟨l4, h4⟩ := r4.bounds (by linarith)
  refine ⟨vs, vx, vy, hvs, hvs_pos, hvx, ?_, ?_, hvy, ?_, ?_⟩
  · generalize vX / vs = q at qx_lo qx_hi l3 h3
    linarith
  · generalize vX / vs = q at qx_lo qx_hi l3 h3
    linarith
  · generalize vY / vs = q at qy_lo qy_hi l4 h4
    linarith
  · generalize vY / vs = q at qy_lo qy_hi l4 h4
    linarith

/-- Strict bounds on a value, as float64 comparisons. -/
theorem IsVal.between {x : F64} {v : ℚ} (h : IsVal x v) (h0 : 0 < v) (h1 : v < 1) :
    zero < x ∧ x < one :=
  ⟨(val_zero.lt_iff h).mpr h0, (h.lt_iff val_one).mpr h1⟩

/-- The whole of `Normalized2XY` after gamma correction, in float64: for channel
values in `[0, 1]` whose sum is at least `1e-7`, the divisor is a positive finite
float64 and both results are finite float64 values strictly between `0` and `1`. -/
theorem lin_proj_val {cr cg cb : F64} {a b c : ℚ}
    (ha : IsVal cr a) (hb : IsVal cg b) (hc : IsVal cb c)
    (ha1 : a ≤ 1) (hb1 : b ≤ 1) (hc1 : c ≤ 1) (hsum : 1 / 10 ^ 7 ≤ a + b + c) :
    zero < (specLinear cr cg cb).1 + (specLinear cr cg cb).2.1 + (specLinear cr cg cb).2.2
    ∧ (zero < (specProject (specLinear cr cg cb)).1
        ∧ (specProject (specLinear cr cg cb)).1 < one)
    ∧ (zero < (specProject (specLinear cr cg cb)).2
        ∧ (specProject (specLinear cr cg cb)).2 < one) := by
  have ha0 := ha.nonneg
  have hb0 := hb.nonneg
  have hc0 := hc.nonneg
  obtain ⟨vX, hX, lX, uX⟩ := row_val ha hb hc val_A val_B val_C ha1 hb1 hc1
    (by norm_num) (by norm_num) (by norm_num)
  obtain ⟨vY, hY, lY, uY⟩ := row_val ha hb hc val_D val_E val_F ha1 hb1 hc1
    (by norm_num) (by norm_num) (by norm_num)
  obtain ⟨vZ, hZ, lZ, uZ⟩ := row_val ha hb hc val_G val_H val_I ha1 hb1 hc1
    (by norm_num) (by norm_num) (by norm_num)
  obtain ⟨vs, vx, vy, hs, hs0, hx, hx0, hx1, hy, hy0, hy1⟩ :=
    proj_val hX hY hZ (by linarith) (by linarith) (by linarith) (by linarith) (by linarith)
      (by linarith) (by linarith)
  exact ⟨(val_zero.lt_iff hs).mpr hs0, hx.between hx0 hx1, hy.between hy0 hy1⟩

theorem wide_full : ((0xffff : Nat) : F64) / maxColorF = one := by decide!

/-- Gamma correction of a normalised channel in float64, given the assumption on
`math.Pow`: a finite value in `[0, 1]`, at least `1e-7` unless the channel is `0`. -/
theorem chan_val (pow : F64 → F64 → F64) (hp : PowRange pow) (r M : Nat) (mx : F64)
    (hmx : IsVal mx (M : ℚ)) (hM : M = 255 ∨ M = 65535)
    (hfull : ((M : Nat) : F64) / mx = one) (hr : r ≤ M) :
    ∃ v, IsVal (ApplyGammaCorrection pow ((r : F64) / mx)) v ∧ v ≤ 1
      ∧ (r ≠ 0 → 1 / 10 ^ 7 ≤ v) := by
  rcases Nat.lt_or_ge r M with hlt | hge
  · obtain ⟨w, hw, hw1, hw0⟩ := norm_val r M mx hmx hM hlt
    obtain ⟨v, hv, hv1, hv0⟩ := agc_val pow hp _ w hw (Or.inl (by
      have : (1 : ℚ) - 1 / 10 ^ 5 + 7926335344172073 / 2 ^ 57 ≤ 4751297606875873 / 2 ^ 52 := by
        norm_num
      linarith))
    exact ⟨v, hv, hv1, fun hne => hv0 (hw0 hne)⟩
  · have hrM : r = M := le_antisymm hr hge
    subst hrM
    rw [hfull]
    obtain ⟨v, hv, hv1, hv0⟩ := agc_val pow hp one 1 val_one (Or.inr rfl)
    exact ⟨v, hv, hv1, fun _ => hv0 (by norm_num)⟩

/-- The float64 range statement for three channels normalised by the same maximum. -/
theorem xy_val (pow : F64 → F64 → F64) (hp : PowRange pow) (r g b M : Nat) (mx : F64)
    (hmx : IsVal mx (M : ℚ)) (hM : M = 255 ∨ M = 65535)
    (hfull : ((M : Nat) : F64) / mx = one) (hr : r ≤ M) (hg : g ≤ M) (hb : b ≤ M)
    (hnz : r ≠ 0 ∨ g ≠ 0 ∨ b ≠ 0) :
    zero < Normalized2XY_sum pow ((r : F64) / mx) ((g : F64) / mx) ((b : F64) / mx)
    ∧ (zero < (Normalized2XY pow ((r : F64) / mx) ((g : F64) / mx) ((b : F64) / mx)).1
      ∧ (Normalized2XY pow ((r : F64) / mx) ((g : F64) / mx) ((b : F64) / mx)).1 < one)
    ∧ (zero < (Normalized2XY pow ((r : F64) / mx) ((g : F64) / mx) ((b : F64) / mx)).2
      ∧ (Normalized2XY pow ((r : F64) / mx) ((g : F64) / mx) ((b : F64) / mx)).2 < one) := by
  obtain ⟨a, ha, ha1, ha0⟩ := chan_val pow hp r M mx hmx hM hfull hr
  obtain ⟨b', hb', hb1, hb0⟩ := chan_val pow hp g M mx hmx hM hfull hg
  obtain ⟨c, hc, hc1, hc0⟩ := chan_val pow hp b M mx hmx hM hfull hb
  have na := ha.nonneg
  have nb := hb'.nonneg
  have nc := hc.nonneg
  have hsum : (1 : ℚ) / 10 ^ 7 ≤ a + b' + c := by
    rcases hnz with h | h | h
    · have := ha0 h
      linarith
    · have := hb0 h
      linarith
    · have := hc0 h
      linarith
  exact lin_proj_val ha hb' hc ha1 hb1 hc1 hsum

theorem samplePow_range : PowRange samplePow := by
  intro x h1 h2
  obtain ⟨v, hv, hlo, hhi⟩ := isVal_of_between val_009 val_one h1 h2
  refine ⟨?_, h2⟩
  show (0.001 : F64) ≤ x
  rw [val_0001.le_iff hv]
  have : (4611686018427388 / 2 ^ 62 : ℚ) ≤ 6485183463413514 / 2 ^ 56 := by norm_num
  linarith

/-! ## Float64: canonical values of the unit interval -/

/-- A canonical float64 value in `[0, 1]` is either `1` itself or at most
`1 - 2^-53`, in which case adding `0.055` to it cannot exceed the float64 `1.055`. -/
theorem canon_cases {c : F64} {w : ℚ} (hc : Canonical c) (hw : IsVal c w) (hw1 : w ≤ 1) :
    w + 7926335344172073 / 2 ^ 57 ≤ 4751297606875873 / 2 ^ 52 ∨ c = one := by
  obtain ⟨a, m, e, rfl, hs, rfl⟩ := hw
  obtain ⟨hm, he1, _, hn⟩ := hc
  have hm' : (m : ℚ) < 2 ^ 53 := by exact_mod_cast hm
  have hm0 : (0 : ℚ) ≤ m := by positivity
  have h2e := two_zpow_pos e
  have hnum : (1 : ℚ) - 1 / 2 ^ 53 + 7926335344172073 / 2 ^ 57 ≤ 4751297606875873 / 2 ^ 52 := by
    norm_num
  have hhalf : (m : ℚ) * 2 ^ e ≤ 1 / 2 →
      (m : ℚ) * 2 ^ e + 7926335344172073 / 2 ^ 57 ≤ 4751297606875873 / 2 ^ 52 := by
    intro h
    have : (1 : ℚ) / 2 ≤ 1 - 1 / 2 ^ 53 := by norm_num
    linarith
  -- a small exponent makes the value at most one half
  have hsmall : e ≤ -54 → (m : ℚ) * 2 ^ e ≤ 1 / 2 := by
    intro he
    have h1 : (2 : ℚ) ^ e ≤ 2 ^ (-54 : Int) := two_zpow_mono _ _ he
    have h2 : (m : ℚ) * 2 ^ e ≤ 2 ^ 53 * 2 ^ (-54 : Int) :=
      mul_le_mul hm'.le h1 h2e.le (by positivity)
    have e3 : (2 : ℚ) ^ 53 * 2 ^ (-54 : Int) = 1 / 2 := by
      rw [zpow_neg]
      norm_num
    rw [e3] at h2
    exact h2
  rcases hn with hbig | hsub
  · have hbig' : (2 : ℚ) ^ 52 ≤ m := by exact_mod_cast hbig
    have hm_ne : m ≠ 0 := by
      intro h
      rw [h] at hbig
      norm_num at hbig
    have ha : a = false := by
      rcases hs with h | h
      · exact h
      · exact absurd h hm_ne
    -- the exponent is at most `-52`
    have he52 : e ≤ -52 := by
      by_contra hcon
      push_neg at hcon
      have h1 : (2 : ℚ) ^ (-51 : Int) ≤ 2 ^ e := two_zpow_mono _ _ (by omega)
      have h2 : (2 : ℚ) ^ 52 * 2 ^ (-51 : Int) ≤ (m : ℚ) * 2 ^ e :=
        mul_le_mul hbig' h1 (two_zpow_pos _).le hm0
      have e3 : (2 : ℚ) ^ 52 * 2 ^ (-51 : Int) = 2 := by
        rw [zpow_neg]
        norm_num
      rw [e3] at h2
      linarith
    rcases (by omega : e ≤ -54 ∨ e = -53 ∨ e = -52) with h | h | h
    · exact Or.inl (hhalf (hsmall h))
    · left
      subst h
      have hm1 : (m : ℚ) + 1 ≤ 2 ^ 53 := by exact_mod_cast hm
      have e0 : (2 : ℚ) ^ (-53 : Int) = 1 / 2 ^ 53 := by
        rw [zpow_neg]
        norm_num
      have e3 : (m : ℚ) * 2 ^ (-53 : Int) = (m : ℚ) / 2 ^ 53 := by
        rw [e0, mul_one_div]
      rw [e3]
      have : (m : ℚ) / 2 ^ 53 ≤ 1 - 1 / 2 ^ 53 := by
        rw [div_le_iff₀ (by positivity)]
        linarith
      linarith
    · subst h
      have e0 : (2 : ℚ) ^ (-52 : Int) = 1 / 2 ^ 52 := by
        rw [zpow_neg]
        norm_num
      have e3 : (m : ℚ) * 2 ^ (-52 : Int) = (m : ℚ) / 2 ^ 52 := by
        rw [e0, mul_one_div]
      rw [e3] at hw1
      have hm2 : (m : ℚ) ≤ 2 ^ 52 := by
        rw [div_le_iff₀ (by positivity)] at hw1
        linarith
      have hmeq : m = 2 ^ 52 := by
        have : m ≤ 2 ^ 52 := by exact_mod_cast hm2
        omega
      right
      rw [ha, hmeq]
      rfl
  · exact Or.inl (hhalf (hsmall (by omega)))

/-- In float64 arithmetic, given the assumption on `math.Pow`, gamma correction maps
every float64 value of the unit interval into the unit interval. -/
theorem gamma_unit_f64 (pow : F64 → F64 → F64) (hp : PowRange pow) (c : F64)
    (hc : Canonical c) (h0 : zero ≤ c) (h1 : c ≤ one) :
    zero ≤ ApplyGammaCorrection pow c ∧ ApplyGammaCorrection pow c ≤ one := by
  obtain ⟨w, hw, _, hw1⟩ := isVal_of_between val_zero val_one h0 h1
  obtain ⟨v, hv, hv1, _⟩ := agc_val pow hp c w hw (canon_cases hc hw hw1)
  exact ⟨(val_zero.le_iff hv).mpr hv.nonneg, (hv.le_iff val_one).mpr hv1⟩

/-! ## Float64: statements used by the claims -/

theorem finite_of_between {x : F64} (h0 : zero < x) (h1 : x < one) : isFinite x = true := by
  cases x with
  | nan => exact absurd h0 (fun h => Bool.false_ne_true h)
  | inf c =>
    cases c
    · exact absurd h1 (fun h => Bool.false_ne_true h)
    · exact absurd h0 (fun h => Bool.false_ne_true h)
  | fin c k g => rfl

/-- For black input the divisor is `+0`, for any `math.Pow`. -/
theorem sum_black (pow : F64 → F64 → F64) :
    Normalized2XY_sum pow (NormalizeRGB 0 0 0).1 (NormalizeRGB 0 0 0).2.1
      (NormalizeRGB 0 0 0).2.2 = zero := by
  simp only [NormalizeRGB, Normalized2XY_sum, byte_zero, gamma_zero]
  decide!

theorem zero_not_pos : ¬ (zero < zero) := by decide!

/-- The float64 range statement in the form used by the claims: positive divisor,
and both results finite and strictly between `0` and `1`. -/
theorem xy_range (pow : F64 → F64 → F64) (hp : PowRange pow) (r g b M : Nat) (mx : F64)
    (hmx : IsVal mx (M : ℚ)) (hM : M = 255 ∨ M = 65535)
    (hfull : ((M : Nat) : F64) / mx = one) (hr : r ≤ M) (hg : g ≤ M) (hb : b ≤ M)
    (hnz : r ≠ 0 ∨ g ≠ 0 ∨ b ≠ 0) :
    zero < Normalized2XY_sum pow ((r : F64) / mx) ((g : F64) / mx) ((b : F64) / mx)
    ∧ (isFinite (Normalized2XY pow ((r : F64) / mx) ((g : F64) / mx) ((b : F64) / mx)).1 = true
      ∧ zero < (Normalized2XY pow ((r : F64) / mx) ((g : F64) / mx) ((b : F64) / mx)).1
      ∧ (Normalized2XY pow ((r : F64) / mx) ((g : F64) / mx) ((b : F64) / mx)).1 < one)
    ∧ (isFinite (Normalized2XY pow ((r : F64) / mx) ((g : F64) / mx) ((b : F64) / mx)).2 = true
      ∧ zero < (Normalized2XY pow ((r : F64) / mx) ((g : F64) / mx) ((b : F64) / mx)).2
      ∧ (Normalized2XY pow ((r : F64) / mx) ((g : F64) / mx) ((b : F64) / mx)).2 < one) := by
  obtain ⟨hs, ⟨hx0, hx1⟩, ⟨hy0, hy1⟩⟩ := xy_val pow hp r g b M mx hmx hM hfull hr hg hb hnz
  exact ⟨hs, ⟨finite_of_between hx0 hx1, hx0, hx1⟩, ⟨finite_of_between hy0 hy1, hy0, hy1⟩⟩

theorem val_255_cast : IsVal (maxByteF : F64) ((255 : Nat) : ℚ) := by
  have h := val_255
  simpa using h

theorem val_65535_cast : IsVal (maxColorF : F64) ((65535 : Nat) : ℚ) := by
  have h := val_65535
  simpa using h

end F64

/-! ## Exact arithmetic facts -/

theorem gammaR_eq (c : ℝ) : ApplyGammaCorrection Real.rpow c
    = if c > 0.04045 then ((c + 0.055) / 1.055) ^ (2.4 : ℝ) else c / 12.92 := rfl

theorem gammaR_nonneg (c : ℝ) (hc : 0 ≤ c) : 0 ≤ ApplyGammaCorrection Real.rpow c := by
  rw [gammaR_eq]
  split_ifs with h
  · exact Real.rpow_nonneg (by positivity) _
  · positivity

theorem gammaR_pos (c : ℝ) (hc : 0 < c) : 0 < ApplyGammaCorrection Real.rpow c := by
  rw [gammaR_eq]
  split_ifs with h
  · exact Real.rpow_pos_of_pos (by positivity) _
  · positivity

theorem gammaR_le_one (c : ℝ) (hc1 : c ≤ 1) : ApplyGammaCorrection Real.rpow c ≤ 1 := by
  rw [gammaR_eq]
  split_ifs with h
  · apply Real.rpow_le_one (by positivity) _ (by norm_num)
    rw [div_le_one (by norm_num)]
    norm_num
    linarith
  · rw [div_le_one (by norm_num)]
    linarith

theorem gammaR_zero : ApplyGammaCorrection Real.rpow 0 = 0 := by
  rw [gammaR_eq]
  norm_num

theorem gammaR_one : ApplyGammaCorrection Real.rpow 1 = 1 := by
  rw [gammaR_eq]
  norm_num

/-- A combination with positive weights of non-negative numbers, one of them
positive, is positive. -/
theorem lin_pos (a b c p q s : ℝ) (ha : 0 ≤ a) (hb : 0 ≤ b) (hc : 0 ≤ c)
    (hp : 0 < p) (hq : 0 < q) (hs : 0 < s) (h : 0 < a ∨ 0 < b ∨ 0 < c) :
    0 < a * p + b * q + c * s := by
  have h1 : 0 ≤ a * p := mul_nonneg ha hp.le
  have h2 : 0 ≤ b * q := mul_nonneg hb hq.le
  have h3 : 0 ≤ c * s := mul_nonneg hc hs.le
  rcases h with h | h | h
  · have : 0 < a * p := mul_pos h hp
    linarith
  · have : 0 < b * q := mul_pos h hq
    linarith
  · have : 0 < c * s := mul_pos h hs
    linarith

/-- Both projections of a triple with `X, Y > 0` and `Z ≥ 0` lie strictly between
`0` and `1`. -/
theorem proj_bounds (X Y Z : ℝ) (hX : 0 < X) (hY : 0 < Y) (hZ : 0 ≤ Z) :
    0 < X / (X + Y + Z) ∧ X / (X + Y + Z) < 1 ∧ 0 < Y / (X + Y + Z) ∧ Y / (X + Y + Z) < 1 := by
  have hs : 0 < X + Y + Z := by linarith
  refine ⟨div_pos hX hs, ?_, div_pos hY hs, ?_⟩
  · rw [div_lt_one hs]
    linarith
  · rw [div_lt_one hs]
    linarith

/-- The results of `Normalized2XY` are `X / sum` and `Y / sum` for the local `sum`. -/
theorem Normalized2XY_eq_div_sum {F : Type} [Add F] [Mul F] [Div F] [LT F]
    [DecidableRel (LT.lt : F → F → Prop)] [OfScientific F] (pow : F → F → F) (r g b : F) :
    Normalized2XY pow r g b =
      ((ApplyGammaCorrection pow r * 0.6491852651246980
          + ApplyGammaCorrection pow g * 0.1034883891428110
          + ApplyGammaCorrection pow b * 0.1973263457324920) / Normalized2XY_sum pow r g b,
       (ApplyGammaCorrection pow r * 0.2340599935483600
          + ApplyGammaCorrection pow g * 0.7433166037561910
          + ApplyGammaCorrection pow b * 0.0226234026954449) / Normalized2XY_sum pow r g b) :=
  rfl

/-- In exact arithmetic, non-negative inputs that are not all zero give a positive
`sum` and results strictly inside the unit interval. -/
theorem Normalized2XY_real_bounds (r g b : ℝ) (hr : 0 ≤ r) (hg : 0 ≤ g) (hb : 0 ≤ b)
    (h : 0 < r ∨ 0 < g ∨ 0 < b) :
    0 < Normalized2XY_sum Real.rpow r g b
    ∧ 0 < (Normalized2XY Real.rpow r g b).1 ∧ (Normalized2XY Real.rpow r g b).1 < 1
    ∧ 0 < (Normalized2XY Real.rpow r g b).2 ∧ (Normalized2XY Real.rpow r g b).2 < 1 := by
  have ha := gammaR_nonneg r hr
  have hb2 := gammaR_nonneg g hg
  have hc := gammaR_nonneg b hb
  have hpos : 0 < ApplyGammaCorrection Real.rpow r ∨ 0 < ApplyGammaCorrection Real.rpow g
      ∨ 0 < ApplyGammaCorrection Real.rpow b := by
    rcases h with h | h | h
    · exact Or.inl (gammaR_pos r h)
    · exact Or.inr (Or.inl (gammaR_pos g h))
    · exact Or.inr (Or.inr (gammaR_pos b h))
  have hX := lin_pos _ _ _ 0.6491852651246980 0.1034883891428110 0.1973263457324920
    ha hb2 hc (by norm_num) (by norm_num) (by norm_num) hpos
  have hY := lin_pos _ _ _ 0.2340599935483600 0.7433166037561910 0.0226234026954449
    ha hb2 hc (by norm_num) (by norm_num) (by norm_num) hpos
  have hZ : 0 ≤ ApplyGammaCorrection Real.rpow r * 0.0
      + ApplyGammaCorrection Real.rpow g * 0.0530940431254422
      + ApplyGammaCorrection Real.rpow b * 1.0369059568745600 := by positivity
  have hb := proj_bounds _ _ _ hX hY hZ
  refine ⟨?_, hb⟩
  show 0 < _ + _ + _
  linarith

/-- In exact arithmetic a byte or wide channel normalises to a non-negative number,
positive when the channel is non-zero. -/
theorem cast_div_nonneg (n m : Nat) : (0 : ℝ) ≤ (n : ℝ) / ((m : Nat) : ℝ) := by positivity

theorem cast_div_pos (n m : Nat) (hn : n ≠ 0) (hm : m ≠ 0) :
    (0 : ℝ) < (n : ℝ) / ((m : Nat) : ℝ) := by
  have h1 : (0 : ℝ) < n := by exact_mod_cast Nat.pos_of_ne_zero hn
  have h2 : (0 : ℝ) < m := by exact_mod_cast Nat.pos_of_ne_zero hm
  exact div_pos h1 h2

/-! ## The claims -/

/-- Claim C1: under IEEE-754 binary64 arithmetic, and given the documented special
case `math.Pow(1, y) = 1`, `RGB2XY` returns exactly the four known vectors for
red, green, blue and white. -/
theorem known_vectors (pow : F64 → F64 → F64) (hpow : ∀ y, pow F64.one y = F64.one) :
    RGB2XY pow 255 0 0 = (0.7350000000000004, 0.26499999999999957)
    ∧ RGB2XY pow 0 255 0 = (0.11499999999999991, 0.8260000000000001)
    ∧ RGB2XY pow 0 0 255 = (0.157, 0.017999999999999964)
    ∧ RGB2XY pow 255 255 255 = (0.3125000000000004, 0.3289473684210514) := by
  simp only [RGB2XY, NormalizeRGB, Normalized2XY, F64.byte_full, F64.byte_zero,
    F64.gamma_one pow hpow, F64.gamma_zero]
  decide!

theorem known_vectors_witness :
    (∀ y, F64.samplePow F64.one y = F64.one)
    ∧ (RGB2XY F64.samplePow 255 0 0 = (0.7350000000000004, 0.26499999999999957)
      ∧ RGB2XY F64.samplePow 0 255 0 = (0.11499999999999991, 0.8260000000000001)
      ∧ RGB2XY F64.samplePow 0 0 255 = (0.157, 0.017999999999999964)
      ∧ RGB2XY F64.samplePow 255 255 255 = (0.3125000000000004, 0.3289473684210514)) :=
  ⟨fun _ => rfl, known_vectors F64.samplePow (fun _ => rfl)⟩

/-- Claim C2: for every byte triple with a non-zero channel and every wide colour with
components in `[0, 0xffff]` and a non-zero channel, the divisor `sum` is positive and
both results of `RGB2XY` / `Color2XY` are finite and lie strictly between `0` and `1`:
in float64 arithmetic for every `math.Pow` with `PowRange`, and in exact arithmetic. -/
theorem range_property (r g b : Nat) (c : Color)
    (hr : r < 256) (hg : g < 256) (hb : b < 256) (hnz : r ≠ 0 ∨ g ≠ 0 ∨ b ≠ 0)
    (hR : c.RGBA.1 ≤ 0xffff) (hG : c.RGBA.2.1 ≤ 0xffff) (hB : c.RGBA.2.2.1 ≤ 0xffff)
    (hcnz : c.RGBA.1 ≠ 0 ∨ c.RGBA.2.1 ≠ 0 ∨ c.RGBA.2.2.1 ≠ 0) :
    (∀ pow : F64 → F64 → F64, PowRange pow →
      (F64.zero < Normalized2XY_sum pow (NormalizeRGB r g b).1 (NormalizeRGB r g b).2.1
            (NormalizeRGB r g b).2.2
        ∧ (F64.isFinite (RGB2XY pow r g b).1 = true
          ∧ F64.zero < (RGB2XY pow r g b).1 ∧ (RGB2XY pow r g b).1 < F64.one)
        ∧ (F64.isFinite (RGB2XY pow r g b).2 = true
          ∧ F64.zero < (RGB2XY pow r g b).2 ∧ (RGB2XY pow r g b).2 < F64.one))
      ∧ (F64.zero < Normalized2XY_sum pow (NormalizeColor c).1 (NormalizeColor c).2.1
            (NormalizeColor c).2.2
        ∧ (F64.isFinite (Color2XY pow c).1 = true
          ∧ F64.zero < (Color2XY pow c).1 ∧ (Color2XY pow c).1 < F64.one)
        ∧ (F64.isFinite (Color2XY pow c).2 = true
          ∧ F64.zero < (Color2XY pow c).2 ∧ (Color2XY pow c).2 < F64.one)))
    ∧ (0 < Normalized2XY_sum Real.rpow (NormalizeRGB r g b).1 (NormalizeRGB r g b).2.1
          (NormalizeRGB r g b).2.2
      ∧ 0 < (RGB2XY Real.rpow r g b).1 ∧ (RGB2XY Real.rpow r g b).1 < 1
      ∧ 0 < (RGB2XY Real.rpow r g b).2 ∧ (RGB2XY Real.rpow r g b).2 < 1)
    ∧ (0 < Normalized2XY_sum Real.rpow (NormalizeColor c).1 (NormalizeColor c).2.1
          (NormalizeColor c).2.2
      ∧ 0 < (Color2XY Real.rpow c).1 ∧ (Color2XY Real.rpow c).1 < 1
      ∧ 0 < (Color2XY Real.rpow c).2 ∧ (Color2XY Real.rpow c).2 < 1) := by
  refine ⟨fun pow hp => ⟨?_, ?_⟩, ?_, ?_⟩
  · exact F64.xy_range pow hp r g b 255 maxByteF F64.val_255_cast (Or.inl rfl) F64.byte_full
      (Nat.lt_succ_iff.mp hr) (Nat.lt_succ_iff.mp hg) (Nat.lt_succ_iff.mp hb) hnz
  · obtain ⟨⟨R, G, B, A⟩⟩ := c
    exact F64.xy_range pow hp R G B 65535 maxColorF F64.val_65535_cast (Or.inr rfl)
      F64.wide_full hR hG hB hcnz
  · apply Normalized2XY_real_bounds _ _ _ (cast_div_nonneg r 255) (cast_div_nonneg g 255)
      (cast_div_nonneg b 255)
    rcases hnz with h | h | h
    · exact Or.inl (cast_div_pos r 255 h (by norm_num))
    · exact Or.inr (Or.inl (cast_div_pos g 255 h (by norm_num)))
    · exact Or.inr (Or.inr (cast_div_pos b 255 h (by norm_num)))
  · apply Normalized2XY_real_bounds _ _ _ (cast_div_nonneg c.RGBA.1 0xffff)
      (cast_div_nonneg c.RGBA.2.1 0xffff) (cast_div_nonneg c.RGBA.2.2.1 0xffff)
    rcases hcnz with h | h | h
    · exact Or.inl (cast_div_pos _ 0xffff h (by norm_num))
    · exact Or.inr (Or.inl (cast_div_pos _ 0xffff h (by norm_num)))
    · exact Or.inr (Or.inr (cast_div_pos _ 0xffff h (by norm_num)))

theorem range_property_witness :
    (1 < 256 ∧ (1 ≠ 0 ∨ 0 ≠ 0 ∨ 0 ≠ 0) ∧ 0xffff ≤ 0xffff ∧ PowRange F64.samplePow)
    ∧ ((F64.isFinite (RGB2XY F64.samplePow 1 0 0).1 = true
        ∧ F64.zero < (RGB2XY F64.samplePow 1 0 0).1
        ∧ (RGB2XY F64.samplePow 1 0 0).1 < F64.one)
      ∧ (F64.isFinite (RGB2XY F64.samplePow 1 0 0).2 = true
        ∧ F64.zero < (RGB2XY F64.samplePow 1 0 0).2
        ∧ (RGB2XY F64.samplePow 1 0 0).2 < F64.one))
    ∧ ((F64.isFinite (Color2XY F64.samplePow ⟨(0, 0, 0xffff, 7)⟩).1 = true
        ∧ F64.zero < (Color2XY F64.samplePow ⟨(0, 0, 0xffff, 7)⟩).1
        ∧ (Color2XY F64.samplePow ⟨(0, 0, 0xffff, 7)⟩).1 < F64.one)
      ∧ (F64.isFinite (Color2XY F64.samplePow ⟨(0, 0, 0xffff, 7)⟩).2 = true
        ∧ F64.zero < (Color2XY F64.samplePow ⟨(0, 0, 0xffff, 7)⟩).2
        ∧ (Color2XY F64.samplePow ⟨(0, 0, 0xffff, 7)⟩).2 < F64.one))
    ∧ (0 < (RGB2XY Real.rpow 1 0 0).1 ∧ (RGB2XY Real.rpow 1 0 0).1 < 1
      ∧ 0 < (RGB2XY Real.rpow 1 0 0).2 ∧ (RGB2XY Real.rpow 1 0 0).2 < 1)
    ∧ (0 < (Color2XY Real.rpow ⟨(0, 0, 0xffff, 7)⟩).1
      ∧ (Color2XY Real.rpow ⟨(0, 0, 0xffff, 7)⟩).1 < 1
      ∧ 0 < (Color2XY Real.rpow ⟨(0, 0, 0xffff, 7)⟩).2
      ∧ (Color2XY Real.rpow ⟨(0, 0, 0xffff, 7)⟩).2 < 1) :=
  have h := range_property 1 0 0 ⟨(0, 0, 0xffff, 7)⟩ (by decide) (by decide) (by decide)
    (Or.inl (by decide)) (by decide) (by decide) (by decide)
    (Or.inr (Or.inr (by decide)))
  ⟨⟨by decide, Or.inl (by decide), by decide, F64.samplePow_range⟩,
    (h.1 F64.samplePow F64.samplePow_range).1.2,
    (h.1 F64.samplePow F64.samplePow_range).2.2, h.2.1.2, h.2.2.2⟩

/-- Claim C3: for every byte triple `(r, g, b)` and every alpha `a`, a colour whose
`RGBA` accessor returns `(257*r, 257*g, 257*b, a)` is normalised by `NormalizeColor`
to the triple `NormalizeRGB r g b`, and `Color2XY` of it equals `RGB2XY r g b`;
this holds bit for bit in float64 arithmetic (for any `math.Pow`) and in exact
arithmetic. -/
theorem wide_byte_equivalence (r g b a : Nat) (hr : r < 256) (hg : g < 256) (hb : b < 256) :
    ((NormalizeColor ⟨(257 * r, 257 * g, 257 * b, a)⟩ : F64 × F64 × F64) = NormalizeRGB r g b
      ∧ ∀ pow : F64 → F64 → F64,
          Color2XY pow ⟨(257 * r, 257 * g, 257 * b, a)⟩ = RGB2XY pow r g b)
    ∧ ((NormalizeColor ⟨(257 * r, 257 * g, 257 * b, a)⟩ : ℝ × ℝ × ℝ) = NormalizeRGB r g b
      ∧ ∀ pow : ℝ → ℝ → ℝ,
          Color2XY pow ⟨(257 * r, 257 * g, 257 * b, a)⟩ = RGB2XY pow r g b) := by
  have hF : (NormalizeColor ⟨(257 * r, 257 * g, 257 * b, a)⟩ : F64 × F64 × F64)
      = NormalizeRGB r g b := by
    simp only [NormalizeColor, NormalizeRGB, F64.wide_eq_byte r hr, F64.wide_eq_byte g hg,
      F64.wide_eq_byte b hb]
  have hreal : ∀ n : Nat, ((257 * n : Nat) : ℝ) / maxColorF = (n : ℝ) / maxByteF := by
    intro n
    simp only [maxColorF, maxByteF]
    push_cast
    rw [div_eq_div_iff (by norm_num) (by norm_num)]
    ring
  have hR : (NormalizeColor ⟨(257 * r, 257 * g, 257 * b, a)⟩ : ℝ × ℝ × ℝ)
      = NormalizeRGB r g b := by
    simp only [NormalizeColor, NormalizeRGB, hreal]
  refine ⟨⟨hF, fun pow => ?_⟩, ⟨hR, fun pow => ?_⟩⟩
  · simp only [Color2XY, RGB2XY, hF]
  · simp only [Color2XY, RGB2XY, hR]

theorem wide_byte_equivalence_witness :
    (255 < 256)
    ∧ (NormalizeColor ⟨(0xffff, 0xffff, 0xffff, 0xffff)⟩ : F64 × F64 × F64)
        = NormalizeRGB 255 255 255
    ∧ (∀ pow : F64 → F64 → F64,
        Color2XY pow ⟨(0xffff, 0xffff, 0xffff, 0xffff)⟩ = RGB2XY pow 255 255 255) :=
  ⟨by decide,
   (wide_byte_equivalence 255 255 255 0xffff (by decide) (by decide) (by decide)).1.1,
   (wide_byte_equivalence 255 255 255 0xffff (by decide) (by decide) (by decide)).1.2⟩

/-- Claim C4: for every byte triple the results of `RGB2XY` are `X / sum` and
`Y / sum`, where the divisor `sum = X + Y + Z` is `0` exactly when `r = g = b = 0` and
is strictly positive otherwise: in float64 arithmetic for every `math.Pow` with
`PowRange` (the divisor of black input is `+0` for any `math.Pow`), and in exact
arithmetic. -/
theorem sum_zero_iff_black (r g b : Nat) (hr : r < 256) (hg : g < 256) (hb : b < 256) :
    (∀ pow : F64 → F64 → F64,
      RGB2XY pow r g b
        = ((specLinear (ApplyGammaCorrection pow (NormalizeRGB r g b).1)
              (ApplyGammaCorrection pow (NormalizeRGB r g b).2.1)
              (ApplyGammaCorrection pow (NormalizeRGB r g b).2.2)).1
            / Normalized2XY_sum pow (NormalizeRGB r g b).1 (NormalizeRGB r g b).2.1
                (NormalizeRGB r g b).2.2,
           (specLinear (ApplyGammaCorrection pow (NormalizeRGB r g b).1)
              (ApplyGammaCorrection pow (NormalizeRGB r g b).2.1)
              (ApplyGammaCorrection pow (NormalizeRGB r g b).2.2)).2.1
            / Normalized2XY_sum pow (NormalizeRGB r g b).1 (NormalizeRGB r g b).2.1
                (NormalizeRGB r g b).2.2)
      ∧ ((r = 0 ∧ g = 0 ∧ b = 0) →
          Normalized2XY_sum pow (NormalizeRGB r g b).1 (NormalizeRGB r g b).2.1
            (NormalizeRGB r g b).2.2 = F64.zero)
      ∧ (PowRange pow →
          (Normalized2XY_sum pow (NormalizeRGB r g b).1 (NormalizeRGB r g b).2.1
              (NormalizeRGB r g b).2.2 = F64.zero ↔ r = 0 ∧ g = 0 ∧ b = 0)
          ∧ (¬ (r = 0 ∧ g = 0 ∧ b = 0) →
              F64.zero < Normalized2XY_sum pow (NormalizeRGB r g b).1
                (NormalizeRGB r g b).2.1 (NormalizeRGB r g b).2.2)))
    ∧ RGB2XY Real.rpow r g b
        = ((specLinear (ApplyGammaCorrection Real.rpow (NormalizeRGB r g b).1)
              (ApplyGammaCorrection Real.rpow (NormalizeRGB r g b).2.1)
              (ApplyGammaCorrection Real.rpow (NormalizeRGB r g b).2.2)).1
            / Normalized2XY_sum Real.rpow (NormalizeRGB r g b).1 (NormalizeRGB r g b).2.1
                (NormalizeRGB r g b).2.2,
           (specLinear (ApplyGammaCorrection Real.rpow (NormalizeRGB r g b).1)
              (ApplyGammaCorrection Real.rpow (NormalizeRGB r g b).2.1)
              (ApplyGammaCorrection Real.rpow (NormalizeRGB r g b).2.2)).2.1
            / Normalized2XY_sum Real.rpow (NormalizeRGB r g b).1 (NormalizeRGB r g b).2.1
                (NormalizeRGB r g b).2.2)
    ∧ (Normalized2XY_sum Real.rpow (NormalizeRGB r g b).1 (NormalizeRGB r g b).2.1
        (NormalizeRGB r g b).2.2 = 0 ↔ r = 0 ∧ g = 0 ∧ b = 0)
    ∧ (¬ (r = 0 ∧ g = 0 ∧ b = 0) →
        0 < Normalized2XY_sum Real.rpow (NormalizeRGB r g b).1 (NormalizeRGB r g b).2.1
          (NormalizeRGB r g b).2.2) := by
  have hpos : ¬ (r = 0 ∧ g = 0 ∧ b = 0) →
      0 < Normalized2XY_sum Real.rpow (NormalizeRGB r g b).1 (NormalizeRGB r g b).2.1
        (NormalizeRGB r g b).2.2 := by
    intro hne
    have hnz : r ≠ 0 ∨ g ≠ 0 ∨ b ≠ 0 := by
      by_contra hcon
      push_neg at hcon
      exact hne hcon
    apply (Normalized2XY_real_bounds _ _ _ (cast_div_nonneg r 255) (cast_div_nonneg g 255)
      (cast_div_nonneg b 255) _).1
    rcases hnz with h | h | h
    · exact Or.inl (cast_div_pos r 255 h (by norm_num))
    · exact Or.inr (Or.inl (cast_div_pos g 255 h (by norm_num)))
    · exact Or.inr (Or.inr (cast_div_pos b 255 h (by norm_num)))
  have hblack : ∀ pow : F64 → F64 → F64, (r = 0 ∧ g = 0 ∧ b = 0) →
      Normalized2XY_sum pow (NormalizeRGB r g b).1 (NormalizeRGB r g b).2.1
        (NormalizeRGB r g b).2.2 = F64.zero := by
    rintro pow ⟨h1, h2, h3⟩
    subst h1 h2 h3
    exact F64.sum_black pow
  have hposF : ∀ pow : F64 → F64 → F64, PowRange pow → ¬ (r = 0 ∧ g = 0 ∧ b = 0) →
      F64.zero < Normalized2XY_sum pow (NormalizeRGB r g b).1 (NormalizeRGB r g b).2.1
        (NormalizeRGB r g b).2.2 := by
    intro pow hp hne
    have hnz : r ≠ 0 ∨ g ≠ 0 ∨ b ≠ 0 := by
      by_contra hcon
      push_neg at hcon
      exact hne hcon
    exact (F64.xy_range pow hp r g b 255 maxByteF F64.val_255_cast (Or.inl rfl) F64.byte_full
      (Nat.lt_succ_iff.mp hr) (Nat.lt_succ_iff.mp hg) (Nat.lt_succ_iff.mp hb) hnz).1
  refine ⟨fun pow => ⟨rfl, hblack pow, fun hp => ⟨⟨fun h0 => ?_, hblack pow⟩, hposF pow hp⟩⟩,
    rfl, ⟨fun h0 => ?_, fun h0 => ?_⟩, hpos⟩
  · by_contra hne
    have h := hposF pow hp hne
    rw [h0] at h
    exact F64.zero_not_pos h
  · by_contra hne
    exact absurd h0 (ne_of_gt (hpos hne))
  · obtain ⟨h1, h2, h3⟩ := h0
    subst h1 h2 h3
    simp only [NormalizeRGB, Normalized2XY_sum, Nat.cast_zero, zero_div, gammaR_zero]
    norm_num

theorem sum_zero_iff_black_witness :
    (3 < 256 ∧ PowRange F64.samplePow)
    ∧ (Normalized2XY_sum F64.samplePow (NormalizeRGB 3 0 200).1 (NormalizeRGB 3 0 200).2.1
        (NormalizeRGB 3 0 200).2.2 = F64.zero ↔ 3 = 0 ∧ 0 = 0 ∧ 200 = 0)
    ∧ (Normalized2XY_sum Real.rpow (NormalizeRGB 3 0 200).1 (NormalizeRGB 3 0 200).2.1
        (NormalizeRGB 3 0 200).2.2 = 0 ↔ 3 = 0 ∧ 0 = 0 ∧ 200 = 0) :=
  have h := sum_zero_iff_black 3 0 200 (by decide) (by decide) (by decide)
  ⟨⟨by decide, F64.samplePow_range⟩, ((h.1 F64.samplePow).2.2 F64.samplePow_range).1,
    h.2.2.1⟩

/-- Claim C5: under float64 arithmetic and for any `math.Pow`, black input raises
no error: the divisor `sum` is `+0`, and `RGB2XY 0 0 0`, as well as `Color2XY` of
any colour with `R = G = B = 0`, returns `(NaN, NaN)`. -/
theorem black_is_nan (pow : F64 → F64 → F64) (a : Nat) :
    Normalized2XY_sum pow (NormalizeRGB 0 0 0).1 (NormalizeRGB 0 0 0).2.1
        (NormalizeRGB 0 0 0).2.2 = F64.zero
    ∧ RGB2XY pow 0 0 0 = (F64.nan, F64.nan)
    ∧ Color2XY pow ⟨(0, 0, 0, a)⟩ = (F64.nan, F64.nan) := by
  simp only [RGB2XY, Color2XY, NormalizeRGB, NormalizeColor, Normalized2XY,
    Normalized2XY_sum, F64.byte_zero, F64.wide_zero, F64.gamma_zero]
  decide!

/-- Claim C6: `NormalizeColor` and `Color2XY` depend only on the `R`, `G`, `B`
components returned by the `RGBA` accessor: two colours that agree on them (and may
differ in alpha) give identical results, in any arithmetic and for any `math.Pow`. -/
theorem alpha_independence {F : Type} [Add F] [Mul F] [Div F] [LT F]
    [DecidableRel (LT.lt : F → F → Prop)] [OfScientific F] [NatCast F]
    (pow : F → F → F) (c d : Color)
    (hR : c.RGBA.1 = d.RGBA.1) (hG : c.RGBA.2.1 = d.RGBA.2.1)
    (hB : c.RGBA.2.2.1 = d.RGBA.2.2.1) :
    (NormalizeColor c : F × F × F) = NormalizeColor d
    ∧ Color2XY pow c = Color2XY pow d := by
  have h : (NormalizeColor c : F × F × F) = NormalizeColor d := by
    obtain ⟨⟨r, g, b, a⟩⟩ := c
    obtain ⟨⟨r2, g2, b2, a2⟩⟩ := d
    simp only at hR hG hB
    subst hR hG hB
    rfl
  exact ⟨h, by simp only [Color2XY, h]⟩

theorem alpha_independence_witness :
    (NormalizeColor ⟨(10, 200, 3000, 0)⟩ : F64 × F64 × F64)
        = NormalizeColor ⟨(10, 200, 3000, 0xffff)⟩
    ∧ Color2XY F64.samplePow ⟨(10, 200, 3000, 0)⟩
        = Color2XY F64.samplePow ⟨(10, 200, 3000, 0xffff)⟩ :=
  alpha_independence F64.samplePow ⟨(10, 200, 3000, 0)⟩ ⟨(10, 200, 3000, 0xffff)⟩ rfl rfl rfl

/-- Claim C7: `ApplyGammaCorrection` is the piecewise sRGB inverse transfer
function: in exact arithmetic the result is `((c + 0.055) / 1.055) ^ 2.4` when
`c > 0.04045` and `c / 12.92` otherwise, the threshold itself takes the linear
branch, and every `c` strictly above it takes the power-law branch; the same branch
selection holds in float64 arithmetic for any `math.Pow`. -/
theorem gamma_piecewise :
    (∀ c : ℝ, ApplyGammaCorrection Real.rpow c
        = if c > 0.04045 then ((c + 0.055) / 1.055) ^ (2.4 : ℝ) else c / 12.92)
    ∧ ApplyGammaCorrection Real.rpow (0.04045 : ℝ) = 0.04045 / 12.92
    ∧ (∀ c : ℝ, 0.04045 < c →
        ApplyGammaCorrection Real.rpow c = ((c + 0.055) / 1.055) ^ (2.4 : ℝ))
    ∧ (∀ c : ℝ, ¬ 0.04045 < c → ApplyGammaCorrection Real.rpow c = c / 12.92)
    ∧ (∀ pow : F64 → F64 → F64,
        ApplyGammaCorrection pow (0.04045 : F64) = (0.04045 : F64) / 12.92)
    ∧ (∀ (pow : F64 → F64 → F64) (c : F64), c > 0.04045 →
        ApplyGammaCorrection pow c = pow ((c + 0.055) / 1.055) 2.4)
    ∧ (∀ (pow : F64 → F64 → F64) (c : F64), ¬ c > 0.04045 →
        ApplyGammaCorrection pow c = c / 12.92) := by
  refine ⟨gammaR_eq, ?_, ?_, ?_, ?_, ?_, ?_⟩
  · rw [gammaR_eq, if_neg (lt_irrefl _)]
  · intro c hc
    rw [gammaR_eq, if_pos hc]
  · intro c hc
    rw [gammaR_eq, if_neg hc]
  · intro pow
    have h : ¬ (0.04045 : F64) > 0.04045 := by decide!
    unfold ApplyGammaCorrection
    rw [if_neg h]
  · intro pow c hc
    unfold ApplyGammaCorrection
    rw [if_pos hc]
  · intro pow c hc
    unfold ApplyGammaCorrection
    rw [if_neg hc]

theorem gamma_piecewise_witness :
    ApplyGammaCorrection Real.rpow (0.5 : ℝ) = ((0.5 + 0.055) / 1.055) ^ (2.4 : ℝ)
    ∧ ApplyGammaCorrection Real.rpow (0.04 : ℝ) = 0.04 / 12.92 :=
  ⟨gamma_piecewise.2.2.1 0.5 (by norm_num), gamma_piecewise.2.2.2.1 0.04 (by norm_num)⟩

/-- Claim C8: `ApplyGammaCorrection` maps the unit interval into itself, with `0`
mapped to `0` and `1` to `1`: in exact arithmetic, and in float64 arithmetic for every
float64 value of the interval and every `math.Pow` with `PowRange` (the end point `0`
for any `math.Pow`, the end point `1` given `math.Pow(1, y) = 1`). -/
theorem gamma_unit_interval (c : ℝ) (h0 : 0 ≤ c) (h1 : c ≤ 1) :
    (0 ≤ ApplyGammaCorrection Real.rpow c ∧ ApplyGammaCorrection Real.rpow c ≤ 1)
    ∧ ApplyGammaCorrection Real.rpow 0 = 0
    ∧ ApplyGammaCorrection Real.rpow 1 = 1
    ∧ (∀ pow : F64 → F64 → F64, ApplyGammaCorrection pow F64.zero = F64.zero)
    ∧ (∀ pow : F64 → F64 → F64, (∀ y, pow F64.one y = F64.one) →
        ApplyGammaCorrection pow F64.one = F64.one)
    ∧ (∀ pow : F64 → F64 → F64, PowRange pow → ∀ d : F64, F64.Canonical d →
        F64.zero ≤ d → d ≤ F64.one →
        F64.zero ≤ ApplyGammaCorrection pow d ∧ ApplyGammaCorrection pow d ≤ F64.one) :=
  ⟨⟨gammaR_nonneg c h0, gammaR_le_one c h1⟩, gammaR_zero, gammaR_one, F64.gamma_zero,
    F64.gamma_one, F64.gamma_unit_f64⟩

theorem gamma_unit_interval_witness :
    ((0 : ℝ) ≤ 0.5 ∧ (0.5 : ℝ) ≤ 1)
    ∧ (0 ≤ ApplyGammaCorrection Real.rpow 0.5 ∧ ApplyGammaCorrection Real.rpow 0.5 ≤ 1)
    ∧ (PowRange F64.samplePow ∧ F64.Canonical (0.5 : F64) ∧ F64.zero ≤ (0.5 : F64)
        ∧ (0.5 : F64) ≤ F64.one)
    ∧ (F64.zero ≤ ApplyGammaCorrection F64.samplePow (0.5 : F64)
        ∧ ApplyGammaCorrection F64.samplePow (0.5 : F64) ≤ F64.one) :=
  have h := gamma_unit_interval 0.5 (by norm_num) (by norm_num)
  have hc : F64.Canonical (0.5 : F64) := by
    rw [show (0.5 : F64) = F64.fin false 4503599627370496 (-53) by decide!]
    exact ⟨by norm_num, by norm_num, by norm_num, Or.inl (by norm_num)⟩
  ⟨⟨by norm_num, by norm_num⟩, h.1,
    ⟨F64.samplePow_range, hc, by decide!, by decide!⟩,
    h.2.2.2.2.2 F64.samplePow F64.samplePow_range (0.5 : F64) hc (by decide!) (by decide!)⟩

/-- Claim C9: in any arithmetic and for any `math.Pow`, `Normalized2XY` is the
reference pipeline (gamma correction of each channel, the fixed linear combination
giving `X, Y, Z`, then `(X / (X+Y+Z), Y / (X+Y+Z))`), `RGB2XY` is `Normalized2XY`
after `NormalizeRGB` and `Color2XY` is `Normalized2XY` after `NormalizeColor`. -/
theorem pipeline_refinement {F : Type} [Add F] [Mul F] [Div F] [LT F]
    [DecidableRel (LT.lt : F → F → Prop)] [OfScientific F] [NatCast F]
    (pow : F → F → F) (r g b : F) (x y z : Nat) (c : Color) :
    Normalized2XY pow r g b
        = specProject (specLinear (ApplyGammaCorrection pow r) (ApplyGammaCorrection pow g)
            (ApplyGammaCorrection pow b))
    ∧ RGB2XY pow x y z
        = Normalized2XY pow (NormalizeRGB x y z).1 (NormalizeRGB x y z).2.1
            (NormalizeRGB x y z).2.2
    ∧ Color2XY pow c
        = Normalized2XY pow (NormalizeColor c).1 (NormalizeColor c).2.1 (NormalizeColor c).2.2 :=
  ⟨rfl, rfl, rfl⟩

/-- Claim C10: in exact arithmetic `NormalizeRGB r g b = (r/255, g/255, b/255)` with
every component in `[0, 1]` for bytes, `0` mapped to `0` and `255` to `1` (these two
also bit for bit in float64), and `NormalizeColor` returns
`(R/65535, G/65535, B/65535)` with every component in `[0, 1]` when the components
are at most `0xffff`. -/
theorem normalisers (r g b : Nat) (c : Color)
    (hr : r < 256) (hg : g < 256) (hb : b < 256)
    (hR : c.RGBA.1 ≤ 0xffff) (hG : c.RGBA.2.1 ≤ 0xffff) (hB : c.RGBA.2.2.1 ≤ 0xffff) :
    ((NormalizeRGB r g b : ℝ × ℝ × ℝ) = ((r : ℝ) / 255, (g : ℝ) / 255, (b : ℝ) / 255)
      ∧ (0 ≤ (r : ℝ) / 255 ∧ (r : ℝ) / 255 ≤ 1)
      ∧ (0 ≤ (g : ℝ) / 255 ∧ (g : ℝ) / 255 ≤ 1)
      ∧ (0 ≤ (b : ℝ) / 255 ∧ (b : ℝ) / 255 ≤ 1))
    ∧ ((NormalizeRGB 0 0 0 : ℝ × ℝ × ℝ) = (0, 0, 0)
      ∧ (NormalizeRGB 255 255 255 : ℝ × ℝ × ℝ) = (1, 1, 1)
      ∧ (NormalizeRGB 0 0 0 : F64 × F64 × F64) = (F64.zero, F64.zero, F64.zero)
      ∧ (NormalizeRGB 255 255 255 : F64 × F64 × F64) = (F64.one, F64.one, F64.one))
    ∧ ((NormalizeColor c : ℝ × ℝ × ℝ)
          = ((c.RGBA.1 : ℝ) / 65535, (c.RGBA.2.1 : ℝ) / 65535, (c.RGBA.2.2.1 : ℝ) / 65535)
      ∧ (0 ≤ (c.RGBA.1 : ℝ) / 65535 ∧ (c.RGBA.1 : ℝ) / 65535 ≤ 1)
      ∧ (0 ≤ (c.RGBA.2.1 : ℝ) / 65535 ∧ (c.RGBA.2.1 : ℝ) / 65535 ≤ 1)
      ∧ (0 ≤ (c.RGBA.2.2.1 : ℝ) / 65535 ∧ (c.RGBA.2.2.1 : ℝ) / 65535 ≤ 1)) := by
  have byteB : ∀ n : Nat, n < 256 → (0 ≤ (n : ℝ) / 255 ∧ (n : ℝ) / 255 ≤ 1) := by
    intro n hn
    have h : (n : ℝ) ≤ 255 := by exact_mod_cast Nat.lt_succ_iff.mp hn
    exact ⟨by positivity, by rw [div_le_one (by norm_num)]; exact h⟩
  have wideB : ∀ n : Nat, n ≤ 0xffff → (0 ≤ (n : ℝ) / 65535 ∧ (n : ℝ) / 65535 ≤ 1) := by
    intro n hn
    have h : (n : ℝ) ≤ 65535 := by exact_mod_cast hn
    exact ⟨by positivity, by rw [div_le_one (by norm_num)]; exact h⟩
  refine ⟨⟨?_, byteB r hr, byteB g hg, byteB b hb⟩, ⟨?_, ?_, ?_, ?_⟩,
    ⟨?_, wideB _ hR, wideB _ hG, wideB _ hB⟩⟩
  · simp only [NormalizeRGB, maxByteF, Nat.cast_ofNat]
  · simp only [NormalizeRGB, maxByteF, Nat.cast_ofNat, Nat.cast_zero, zero_div]
  · simp only [NormalizeRGB, maxByteF, Nat.cast_ofNat]
    norm_num
  · simp only [NormalizeRGB, F64.byte_zero]
  · simp only [NormalizeRGB, F64.byte_full]
  · obtain ⟨⟨R, G, B, A⟩⟩ := c
    simp only [NormalizeColor, maxColorF, Nat.cast_ofNat]

theorem normalisers_witness :
    (128 < 256 ∧ 0x8000 ≤ 0xffff)
    ∧ (NormalizeRGB 128 0 255 : ℝ × ℝ × ℝ)
        = (((128 : Nat) : ℝ) / 255, ((0 : Nat) : ℝ) / 255, ((255 : Nat) : ℝ) / 255)
    ∧ (NormalizeColor ⟨(0x8000, 0, 0xffff, 1)⟩ : ℝ × ℝ × ℝ)
        = (((0x8000 : Nat) : ℝ) / 65535, ((0 : Nat) : ℝ) / 65535, ((0xffff : Nat) : ℝ) / 65535) :=
  have h := normalisers 128 0 255 ⟨(0x8000, 0, 0xffff, 1)⟩ (by decide) (by decide) (by decide)
    (by decide) (by decide) (by decide)
  ⟨by decide, h.1.1, h.2.2.1⟩

/-! ## Exact arithmetic: the threshold of the gamma correction -/

/-- `ApplyGammaCorrection` selects between its two branch expressions. -/
theorem gamma_branches {F : Type} [Add F] [Div F] [LT F]
    [DecidableRel (LT.lt : F → F → Prop)] [OfScientific F] (pow : F → F → F) (c : F) :
    ApplyGammaCorrection pow c
      = if c > 0.04045 then gammaPowerBranch pow c else gammaLinearBranch c := rfl

/-- The fifth power of the power-law branch is the twelfth power of its base. -/
theorem powerBranch_pow_five (c : ℝ) (hc : 0 ≤ (c + 0.055) / 1.055) :
    gammaPowerBranch Real.rpow c ^ 5 = ((c + 0.055) / 1.055) ^ 12 := by
  show (((c + 0.055) / 1.055) ^ (2.4 : ℝ)) ^ 5 = _
  rw [← Real.rpow_natCast, ← Real.rpow_mul hc]
  have h : (2.4 : ℝ) * ((5 : ℕ) : ℝ) = ((12 : ℕ) : ℝ) := by norm_num
  rw [h, Real.rpow_natCast]

theorem powerBranch_nonneg (c : ℝ) (hc : 0 ≤ (c + 0.055) / 1.055) :
    0 ≤ gammaPowerBranch Real.rpow c :=
  Real.rpow_nonneg hc _

/-- At the threshold the power-law branch lies strictly above the linear branch. -/
theorem threshold_gap_pos :
    gammaLinearBranch (0.04045 : ℝ) < gammaPowerBranch Real.rpow 0.04045 := by
  have hb : (0 : ℝ) ≤ (0.04045 + 0.055) / 1.055 := by norm_num
  by_contra hcon
  push_neg at hcon
  have h5 := pow_le_pow_left₀ (powerBranch_nonneg 0.04045 hb) hcon 5
  rw [powerBranch_pow_five 0.04045 hb] at h5
  simp only [gammaLinearBranch] at h5
  norm_num at h5

/-- At the threshold the power-law branch exceeds the linear branch by less than
`1e-7`. -/
theorem threshold_gap_small :
    gammaPowerBranch Real.rpow 0.04045 < gammaLinearBranch (0.04045 : ℝ) + 1e-7 := by
  have hb : (0 : ℝ) ≤ (0.04045 + 0.055) / 1.055 := by norm_num
  by_contra hcon
  push_neg at hcon
  have hl : (0 : ℝ) ≤ gammaLinearBranch (0.04045 : ℝ) + 1e-7 := by
    simp only [gammaLinearBranch]
    norm_num
  have h5 := pow_le_pow_left₀ hl hcon 5
  rw [powerBranch_pow_five 0.04045 hb] at h5
  simp only [gammaLinearBranch] at h5
  norm_num at h5

/-! ## Exact arithmetic: projection of scaled and mixed channels -/

/-- Scaling the three linearized channels by a non-zero factor does not change the
projected chromaticity. -/
theorem proj_lin_scale (t a b c : ℝ) (ht : t ≠ 0) :
    specProject (specLinear (t * a) (t * b) (t * c)) = specProject (specLinear a b c) := by
  have hX : ∀ p q s : ℝ, t * a * p + t * b * q + t * c * s = t * (a * p + b * q + c * s) := by
    intro p q s
    ring
  have hS : ∀ X Y Z : ℝ, t * X + t * Y + t * Z = t * (X + Y + Z) := by
    intro X Y Z
    ring
  simp only [specProject, specLinear, hX, hS, mul_div_mul_left _ _ ht]

theorem normR_zero : ((0 : Nat) : ℝ) / maxByteF = 0 := by
  simp only [Nat.cast_zero, zero_div]

theorem normR_full : ((255 : Nat) : ℝ) / maxByteF = 1 := by
  simp only [maxByteF, Nat.cast_ofNat]
  norm_num

/-- In exact arithmetic `RGB2XY` is the projection of the linear combination of the
gamma-corrected normalised channels. -/
theorem RGB2XY_real (r g b : Nat) :
    RGB2XY Real.rpow r g b
      = specProject (specLinear (ApplyGammaCorrection Real.rpow ((r : ℝ) / maxByteF))
          (ApplyGammaCorrection Real.rpow ((g : ℝ) / maxByteF))
          (ApplyGammaCorrection Real.rpow ((b : ℝ) / maxByteF))) := rfl

/-- Claim C11: in exact arithmetic, for every byte `v > 0` the chromaticity of
`(v, 0, 0)`, `(0, v, 0)`, `(0, 0, v)` and `(v, v, v)` is that of `(255, 0, 0)`,
`(0, 255, 0)`, `(0, 0, 255)` and `(255, 255, 255)` respectively. -/
theorem luminance_independence (v : Nat) (hv0 : 0 < v) (_hv : v < 256) :
    RGB2XY Real.rpow v 0 0 = RGB2XY Real.rpow 255 0 0
    ∧ RGB2XY Real.rpow 0 v 0 = RGB2XY Real.rpow 0 255 0
    ∧ RGB2XY Real.rpow 0 0 v = RGB2XY Real.rpow 0 0 255
    ∧ RGB2XY Real.rpow v v v = RGB2XY Real.rpow 255 255 255 := by
  have ht : ApplyGammaCorrection Real.rpow ((v : ℝ) / maxByteF) ≠ 0 :=
    ne_of_gt (gammaR_pos _ (cast_div_pos v 255 (Nat.pos_iff_ne_zero.mp hv0) (by norm_num)))
  simp only [RGB2XY_real, normR_zero, normR_full, gammaR_zero, gammaR_one]
  have h := proj_lin_scale (ApplyGammaCorrection Real.rpow ((v : ℝ) / maxByteF))
  refine ⟨?_, ?_, ?_, ?_⟩
  · have := h 1 0 0 ht
    simpa only [mul_one, mul_zero] using this
  · have := h 0 1 0 ht
    simpa only [mul_one, mul_zero] using this
  · have := h 0 0 1 ht
    simpa only [mul_one, mul_zero] using this
  · have := h 1 1 1 ht
    simpa only [mul_one, mul_zero] using this

theorem luminance_independence_witness :
    (0 < 7 ∧ 7 < 256)
    ∧ RGB2XY Real.rpow 7 0 0 = RGB2XY Real.rpow 255 0 0
    ∧ RGB2XY Real.rpow 0 7 0 = RGB2XY Real.rpow 0 255 0
    ∧ RGB2XY Real.rpow 0 0 7 = RGB2XY Real.rpow 0 0 255
    ∧ RGB2XY Real.rpow 7 7 7 = RGB2XY Real.rpow 255 255 255 :=
  ⟨by decide, luminance_independence 7 (by decide) (by decide)⟩

/-- Claim C12: in exact arithmetic `ApplyGammaCorrection` selects between its
power-law and its linear branch, and at the threshold `0.04045` the power-law
branch value `((0.04045 + 0.055) / 1.055) ^ 2.4` differs from the linear branch
value `0.04045 / 12.92` (the value the function takes there) by a non-zero amount
that is less than `1e-7` in absolute value. -/
theorem threshold_continuity :
    (∀ c : ℝ, ApplyGammaCorrection Real.rpow c
        = if c > 0.04045 then gammaPowerBranch Real.rpow c else gammaLinearBranch c)
    ∧ gammaPowerBranch Real.rpow 0.04045 = ((0.04045 + 0.055) / 1.055 : ℝ) ^ (2.4 : ℝ)
    ∧ gammaLinearBranch (0.04045 : ℝ) = 0.04045 / 12.92
    ∧ ApplyGammaCorrection Real.rpow 0.04045 = gammaLinearBranch (0.04045 : ℝ)
    ∧ gammaPowerBranch Real.rpow 0.04045 - gammaLinearBranch (0.04045 : ℝ) ≠ 0
    ∧ |gammaPowerBranch Real.rpow 0.04045 - gammaLinearBranch (0.04045 : ℝ)| < 1e-7 := by
  refine ⟨fun c => rfl, rfl, rfl, ?_, ?_, ?_⟩
  · rw [gamma_branches, if_neg (lt_irrefl _)]
  · exact ne_of_gt (sub_pos.mpr threshold_gap_pos)
  · rw [abs_lt]
    constructor
    · have h1 := threshold_gap_pos
      have h2 : (-1e-7 : ℝ) < 0 := by norm_num
      linarith
    · have h1 := threshold_gap_small
      linarith

/-! ## Exact arithmetic: the gamut triangle -/

/-- One term of a mixture: weight `a * T / S` times the column chromaticity `A / T`. -/
theorem mix_term (a A T S : ℝ) (hT : T ≠ 0) : a * T / S * (A / T) = a * A / S := by
  have h : a * T / S * (A / T) = a * A / S * (T / T) := by ring
  rw [h, div_self hT, mul_one]

/-- A projected linear combination is the mixture of the three column
chromaticities `A / Tr`, `B / Tg`, `C / Tb` with weights proportional to channel
times column sum. -/
theorem mix_identity (a b c A B C Tr Tg Tb S : ℝ)
    (hr : Tr ≠ 0) (hg : Tg ≠ 0) (hb : Tb ≠ 0) :
    (a * A + b * B + c * C) / S
      = a * Tr / S * (A / Tr) + b * Tg / S * (B / Tg) + c * Tb / S * (C / Tb) := by
  rw [mix_term a A Tr S hr, mix_term b B Tg S hg, mix_term c C Tb S hb, add_div, add_div]

/-- In exact arithmetic the chromaticities of the three primaries are the column
chromaticities of the matrix. -/
theorem primaries_real :
    Normalized2XY Real.rpow 1 0 0
        = (0.6491852651246980 / (0.6491852651246980 + 0.2340599935483600 + 0.0),
           0.2340599935483600 / (0.6491852651246980 + 0.2340599935483600 + 0.0))
    ∧ Normalized2XY Real.rpow 0 1 0
        = (0.1034883891428110 / (0.1034883891428110 + 0.7433166037561910 + 0.0530940431254422),
           0.7433166037561910 / (0.1034883891428110 + 0.7433166037561910 + 0.0530940431254422))
    ∧ Normalized2XY Real.rpow 0 0 1
        = (0.1973263457324920 / (0.1973263457324920 + 0.0226234026954449 + 1.0369059568745600),
           0.0226234026954449
             / (0.1973263457324920 + 0.0226234026954449 + 1.0369059568745600)) := by
  simp only [Normalized2XY, gammaR_zero, gammaR_one, one_mul, zero_mul, add_zero, zero_add]
  trivial

/-- Claim C13: in exact arithmetic, for every normalised `(r, g, b)` in `[0, 1]^3`
that is not all zero, the result of `Normalized2XY` is a convex combination
(weights `wr, wg, wb ≥ 0` with sum `1`) of the results for the three primaries
`(1, 0, 0)`, `(0, 1, 0)` and `(0, 0, 1)`, in both components. -/
theorem gamut_triangle (r g b : ℝ) (hr0 : 0 ≤ r) (_hr1 : r ≤ 1) (hg0 : 0 ≤ g) (_hg1 : g ≤ 1)
    (hb0 : 0 ≤ b) (_hb1 : b ≤ 1) (hnz : r ≠ 0 ∨ g ≠ 0 ∨ b ≠ 0) :
    ∃ wr wg wb : ℝ, 0 ≤ wr ∧ 0 ≤ wg ∧ 0 ≤ wb ∧ wr + wg + wb = 1
      ∧ (Normalized2XY Real.rpow r g b).1
          = wr * (Normalized2XY Real.rpow 1 0 0).1 + wg * (Normalized2XY Real.rpow 0 1 0).1
            + wb * (Normalized2XY Real.rpow 0 0 1).1
      ∧ (Normalized2XY Real.rpow r g b).2
          = wr * (Normalized2XY Real.rpow 1 0 0).2 + wg * (Normalized2XY Real.rpow 0 1 0).2
            + wb * (Normalized2XY Real.rpow 0 0 1).2 := by
  have hpos : 0 < r ∨ 0 < g ∨ 0 < b := by
    rcases hnz with h | h | h
    · exact Or.inl (lt_of_le_of_ne hr0 (Ne.symm h))
    · exact Or.inr (Or.inl (lt_of_le_of_ne hg0 (Ne.symm h)))
    · exact Or.inr (Or.inr (lt_of_le_of_ne hb0 (Ne.symm h)))
  have hS := (Normalized2XY_real_bounds r g b hr0 hg0 hb0 hpos).1
  have ha := gammaR_nonneg r hr0
  have hb := gammaR_nonneg g hg0
  have hc := gammaR_nonneg b hb0
  have hTr : (0 : ℝ) < 0.6491852651246980 + 0.2340599935483600 + 0.0 := by norm_num
  have hTg : (0 : ℝ) < 0.1034883891428110 + 0.7433166037561910 + 0.0530940431254422 := by
    norm_num
  have hTb : (0 : ℝ) < 0.1973263457324920 + 0.0226234026954449 + 1.0369059568745600 := by
    norm_num
  obtain ⟨p1, p2, p3⟩ := primaries_real
  rw [p1, p2, p3, Normalized2XY_eq_div_sum]
  refine ⟨ApplyGammaCorrection Real.rpow r
            * (0.6491852651246980 + 0.2340599935483600 + 0.0)
            / Normalized2XY_sum Real.rpow r g b,
          ApplyGammaCorrection Real.rpow g
            * (0.1034883891428110 + 0.7433166037561910 + 0.0530940431254422)
            / Normalized2XY_sum Real.rpow r g b,
          ApplyGammaCorrection Real.rpow b
            * (0.1973263457324920 + 0.0226234026954449 + 1.0369059568745600)
            / Normalized2XY_sum Real.rpow r g b,
          div_nonneg (mul_nonneg ha hTr.le) hS.le,
          div_nonneg (mul_nonneg hb hTg.le) hS.le,
          div_nonneg (mul_nonneg hc hTb.le) hS.le, ?_,
          mix_identity _ _ _ _ _ _ _ _ _ _ hTr.ne.symm hTg.ne.symm hTb.ne.symm,
          mix_identity _ _ _ _ _ _ _ _ _ _ hTr.ne.symm hTg.ne.symm hTb.ne.symm⟩
  rw [← add_div, ← add_div, div_eq_one_iff_eq hS.ne.symm]
  simp only [Normalized2XY_sum]
  ring

theorem gamut_triangle_witness :
    ∃ wr wg wb : ℝ, 0 ≤ wr ∧ 0 ≤ wg ∧ 0 ≤ wb ∧ wr + wg + wb = 1
      ∧ (Normalized2XY Real.rpow 0.5 0.25 1).1
          = wr * (Normalized2XY Real.rpow 1 0 0).1 + wg * (Normalized2XY Real.rpow 0 1 0).1
            + wb * (Normalized2XY Real.rpow 0 0 1).1
      ∧ (Normalized2XY Real.rpow 0.5 0.25 1).2
          = wr * (Normalized2XY Real.rpow 1 0 0).2 + wg * (Normalized2XY Real.rpow 0 1 0).2
            + wb * (Normalized2XY Real.rpow 0 0 1).2 :=
  gamut_triangle 0.5 0.25 1 (by norm_num) (by norm_num) (by norm_num) (by norm_num)
    (by norm_num) (by norm_num) (Or.inl (by norm_num))

/-! ## Exact arithmetic: monotonicity of the gamma correction -/

/-- The base of the power-law branch is positive above the threshold. -/
theorem base_pos (c : ℝ) (hc : 0.04045 < c) : 0 < (c + 0.055) / 1.055 := by
  have h : (0 : ℝ) < 0.04045 := by norm_num
  have h2 : (0 : ℝ) < c + 0.055 := by linarith
  positivity

/-- The power-law branch is strictly increasing from the threshold on. -/
theorem powerBranch_strictMono (a b : ℝ) (ha : 0.04045 ≤ a) (hab : a < b) :
    gammaPowerBranch Real.rpow a < gammaPowerBranch Real.rpow b := by
  have h0 : (0 : ℝ) < 0.04045 := by norm_num
  have hbase : (0 : ℝ) ≤ (a + 0.055) / 1.055 := by
    have h2 : (0 : ℝ) ≤ a + 0.055 := by linarith
    positivity
  have hlt : (a + 0.055) / 1.055 < (b + 0.055) / 1.055 := by
    apply div_lt_div_of_pos_right _ (by norm_num)
    linarith
  exact Real.rpow_lt_rpow hbase hlt (by norm_num)

/-- The linear branch is strictly increasing. -/
theorem linearBranch_strictMono (a b : ℝ) (hab : a < b) :
    gammaLinearBranch a < gammaLinearBranch b := by
  simp only [gammaLinearBranch]
  apply div_lt_div_of_pos_right hab (by norm_num)

/-- Claim C14, counterexample: in float64 arithmetic `ApplyGammaCorrection` is not
strictly increasing: the adjacent float64 values `0x1.eb851eb851eb9p-6 < 0x1.eb851eb851ebap-6` (just above `0.03`)
and the values `+0 < 5e-324` lie in `[0, 1]` and have equal results, for any
`math.Pow`. -/
theorem gamma_f64_collision :
    (F64.zero ≤ F64.fin false 8646911284551353 (-58)
      ∧ F64.fin false 8646911284551353 (-58) < F64.fin false 8646911284551354 (-58)
      ∧ F64.fin false 8646911284551354 (-58) ≤ F64.one
      ∧ ∀ pow : F64 → F64 → F64,
          ApplyGammaCorrection pow (F64.fin false 8646911284551353 (-58))
            = ApplyGammaCorrection pow (F64.fin false 8646911284551354 (-58))
          ∧ ¬ (ApplyGammaCorrection pow (F64.fin false 8646911284551353 (-58))
              < ApplyGammaCorrection pow (F64.fin false 8646911284551354 (-58))))
    ∧ (F64.zero ≤ F64.zero ∧ F64.zero < F64.fin false 1 (-1074)
      ∧ F64.fin false 1 (-1074) ≤ F64.one
      ∧ ∀ pow : F64 → F64 → F64,
          ApplyGammaCorrection pow F64.zero = ApplyGammaCorrection pow (F64.fin false 1 (-1074))
          ∧ ¬ (ApplyGammaCorrection pow F64.zero
              < ApplyGammaCorrection pow (F64.fin false 1 (-1074)))) := by
  have a1 : ¬ (F64.fin false 8646911284551353 (-58) > (0.04045 : F64)) := by decide!
  have a2 : ¬ (F64.fin false 8646911284551354 (-58) > (0.04045 : F64)) := by decide!
  have a3 : ¬ (F64.zero > (0.04045 : F64)) := by decide!
  have a4 : ¬ (F64.fin false 1 (-1074) > (0.04045 : F64)) := by decide!
  have e1 : F64.fin false 8646911284551353 (-58) / (12.92 : F64)
      = F64.fin false 8646911284551354 (-58) / (12.92 : F64) := by decide!
  have e2 : F64.zero / (12.92 : F64) = F64.fin false 1 (-1074) / (12.92 : F64) := by decide!
  have n1 : ¬ (F64.fin false 8646911284551354 (-58) / (12.92 : F64)
      < F64.fin false 8646911284551354 (-58) / (12.92 : F64)) := by decide!
  have n2 : ¬ (F64.fin false 1 (-1074) / (12.92 : F64)
      < F64.fin false 1 (-1074) / (12.92 : F64)) := by decide!
  refine ⟨⟨by decide!, by decide!, by decide!, fun pow => ?_⟩,
    ⟨by decide!, by decide!, by decide!, fun pow => ?_⟩⟩
  · unfold ApplyGammaCorrection
    rw [if_neg a1, if_neg a2, e1]
    exact ⟨rfl, n1⟩
  · unfold ApplyGammaCorrection
    rw [if_neg a3, if_neg a4, e2]
    exact ⟨rfl, n2⟩

/-- Claim C14, amended: in exact arithmetic `ApplyGammaCorrection` is strictly
increasing on `[0, 1]`, also across the branch threshold: for `0 ≤ a < b ≤ 1` the
value at `a` is below the value at `b`. -/
theorem gamma_strictly_increasing (a b : ℝ) (_h0 : 0 ≤ a) (hab : a < b) (_h1 : b ≤ 1) :
    ApplyGammaCorrection Real.rpow a < ApplyGammaCorrection Real.rpow b := by
  rw [gamma_branches, gamma_branches]
  by_cases ha : a > 0.04045
  · have hb : b > 0.04045 := lt_trans ha hab
    rw [if_pos ha, if_pos hb]
    exact powerBranch_strictMono a b ha.le hab
  · rw [if_neg ha]
    by_cases hb : b > 0.04045
    · rw [if_pos hb]
      have hle : gammaLinearBranch a ≤ gammaLinearBranch (0.04045 : ℝ) := by
        rcases eq_or_lt_of_le (not_lt.mp ha) with h | h
        · rw [h]
        · exact (linearBranch_strictMono a 0.04045 h).le
      have hgap := threshold_gap_pos
      have hup := powerBranch_strictMono 0.04045 b le_rfl hb
      linarith
    · rw [if_neg hb]
      exact linearBranch_strictMono a b hab

theorem gamma_strictly_increasing_witness :
    ((0 : ℝ) ≤ 0.04045 ∧ (0.04045 : ℝ) < 0.04046 ∧ (0.04046 : ℝ) ≤ 1)
    ∧ ApplyGammaCorrection Real.rpow 0.04045 < ApplyGammaCorrection Real.rpow 0.04046 :=
  ⟨⟨by norm_num, by norm_num, by norm_num⟩,
    gamma_strictly_increasing 0.04045 0.04046 (by norm_num) (by norm_num) (by norm_num)⟩

/-! ## Exact arithmetic: the sum of the two coordinates -/

/-- For a positive divisor and `Z ≥ 0`, the two projections add up to at most `1`,
and to exactly `1` only when `Z = 0`. -/
theorem proj_sum (X Y Z : ℝ) (hS : 0 < X + Y + Z) (hZ : 0 ≤ Z) :
    X / (X + Y + Z) + Y / (X + Y + Z) ≤ 1
    ∧ (X / (X + Y + Z) + Y / (X + Y + Z) = 1 ↔ Z = 0) := by
  rw [← add_div, div_le_one hS, div_eq_one_iff_eq hS.ne.symm]
  constructor
  · linarith
  · constructor
    · intro h
      linarith
    · intro h
      rw [h, add_zero]

/-- In exact arithmetic the gamma correction of a normalised byte vanishes only for
the byte `0`. -/
theorem gamma_byte_eq_zero_iff (n : Nat) :
    ApplyGammaCorrection Real.rpow ((n : ℝ) / maxByteF) = 0 ↔ n = 0 := by
  constructor
  · intro h
    by_contra hn
    exact absurd h (ne_of_gt (gammaR_pos _ (cast_div_pos n 255 hn (by norm_num))))
  · intro h
    rw [h, normR_zero, gammaR_zero]

/-- For non-negative linearized channels, not all zero, the two projected
coordinates add up to at most `1`, and to exactly `1` only when the green and the
blue channel vanish. -/
theorem proj_lin_sum (cr cg cb : ℝ) (hr : 0 ≤ cr) (hg : 0 ≤ cg) (hb : 0 ≤ cb)
    (hpos : 0 < cr ∨ 0 < cg ∨ 0 < cb) :
    (specProject (specLinear cr cg cb)).1 + (specProject (specLinear cr cg cb)).2 ≤ 1
    ∧ ((specProject (specLinear cr cg cb)).1 + (specProject (specLinear cr cg cb)).2 = 1
        ↔ cg = 0 ∧ cb = 0) := by
  have hX := lin_pos cr cg cb 0.6491852651246980 0.1034883891428110 0.1973263457324920
    hr hg hb (by norm_num) (by norm_num) (by norm_num) hpos
  have hY := lin_pos cr cg cb 0.2340599935483600 0.7433166037561910 0.0226234026954449
    hr hg hb (by norm_num) (by norm_num) (by norm_num) hpos
  have h1 : (0 : ℝ) < 0.0530940431254422 := by norm_num
  have h2 : (0 : ℝ) < 1.0369059568745600 := by norm_num
  have hz0 : cr * (0.0 : ℝ) = 0 := by norm_num
  have e1 := mul_nonneg hg h1.le
  have e2 := mul_nonneg hb h2.le
  have hZ : 0 ≤ cr * 0.0 + cg * 0.0530940431254422 + cb * 1.0369059568745600 := by
    rw [hz0, zero_add]
    exact add_nonneg e1 e2
  have hiff : cr * 0.0 + cg * 0.0530940431254422 + cb * 1.0369059568745600 = 0
      ↔ cg = 0 ∧ cb = 0 := by
    rw [hz0, zero_add]
    constructor
    · intro h
      have z1 : cg * 0.0530940431254422 = 0 := le_antisymm (by linarith) e1
      have z2 : cb * 1.0369059568745600 = 0 := le_antisymm (by linarith) e2
      exact ⟨(mul_eq_zero.mp z1).resolve_right h1.ne.symm,
        (mul_eq_zero.mp z2).resolve_right h2.ne.symm⟩
    · rintro ⟨e1, e2⟩
      rw [e1, e2, zero_mul, zero_mul, add_zero]
  have hS : 0 < cr * 0.6491852651246980 + cg * 0.1034883891428110 + cb * 0.1973263457324920
      + (cr * 0.2340599935483600 + cg * 0.7433166037561910 + cb * 0.0226234026954449)
      + (cr * 0.0 + cg * 0.0530940431254422 + cb * 1.0369059568745600) := by linarith
  have key := proj_sum _ _ _ hS hZ
  rw [hiff] at key
  simp only [specProject, specLinear]
  exact key

/-- Claim C15: in exact arithmetic, for every byte triple that is not all zero the
result `(x, y)` of `RGB2XY` satisfies `x + y ≤ 1`, with `x + y = 1` exactly when
`g = 0` and `b = 0`. -/
theorem xy_sum_le_one (r g b : Nat) (_hr : r < 256) (_hg : g < 256) (_hb : b < 256)
    (hnz : r ≠ 0 ∨ g ≠ 0 ∨ b ≠ 0) :
    (RGB2XY Real.rpow r g b).1 + (RGB2XY Real.rpow r g b).2 ≤ 1
    ∧ ((RGB2XY Real.rpow r g b).1 + (RGB2XY Real.rpow r g b).2 = 1 ↔ g = 0 ∧ b = 0) := by
  have hpos : 0 < ApplyGammaCorrection Real.rpow ((r : ℝ) / maxByteF)
      ∨ 0 < ApplyGammaCorrection Real.rpow ((g : ℝ) / maxByteF)
      ∨ 0 < ApplyGammaCorrection Real.rpow ((b : ℝ) / maxByteF) := by
    rcases hnz with h | h | h
    · exact Or.inl (gammaR_pos _ (cast_div_pos r 255 h (by norm_num)))
    · exact Or.inr (Or.inl (gammaR_pos _ (cast_div_pos g 255 h (by norm_num))))
    · exact Or.inr (Or.inr (gammaR_pos _ (cast_div_pos b 255 h (by norm_num))))
  have key := proj_lin_sum (ApplyGammaCorrection Real.rpow ((r : ℝ) / maxByteF))
    (ApplyGammaCorrection Real.rpow ((g : ℝ) / maxByteF))
    (ApplyGammaCorrection Real.rpow ((b : ℝ) / maxByteF))
    (gammaR_nonneg _ (cast_div_nonneg r 255))
    (gammaR_nonneg _ (cast_div_nonneg g 255)) (gammaR_nonneg _ (cast_div_nonneg b 255)) hpos
  rw [gamma_byte_eq_zero_iff g, gamma_byte_eq_zero_iff b] at key
  rw [RGB2XY_real]
  exact key

theorem xy_sum_le_one_witness :
    (255 < 256 ∧ (255 ≠ 0 ∨ 0 ≠ 0 ∨ 0 ≠ 0))
    ∧ (RGB2XY Real.rpow 255 0 0).1 + (RGB2XY Real.rpow 255 0 0).2 ≤ 1
    ∧ ((RGB2XY Real.rpow 255 0 0).1 + (RGB2XY Real.rpow 255 0 0).2 = 1 ↔ 0 = 0 ∧ 0 = 0) :=
  ⟨by decide,
    xy_sum_le_one 255 0 0 (by decide) (by decide) (by decide) (Or.inl (by decide))⟩

end Col2xy
